import Mathlib

/-!
LiveRequestsPanel: event stream simulation and rolling metrics.

A shallow embedding of the engine part of `src/LiveRequestsPanel.jsx`:
the request generator, the capped history buffer, the streaming effect with
its cancellation flag, the freshness set with its removal timers, the RPS
meter and the average score.

Conventions of the embedding.

* Times are integer milliseconds (`Date.now()`, `Date` values).
* A call of `Math.random()` is an argument of type `Draw`, a binary64 in `[0, 1)`.
* Numbers are IEEE binary64: every product, quotient, sum and difference that the code
  computes on non-integers or on integers that may leave the exact range goes through
  `binary64`, the round-to-nearest-even of the exact result to a 53 bit significand
  (exponent range not limited, so the function agrees with the hardware between
  `2^-1022` and `2^1024`). `Math.floor`, `Math.round` and `toFixed` act on the exact
  value of the binary64 they receive.
* A React state setter called with an updater is applied in call order, so a
  timer callback is one atomic transition of the state.
-/

namespace LiveRequestsPanel

/-! ## Numbers -/

/-- Nearest integer, ties to the even neighbour. -/
def roundHalfEven (q : ℚ) : ℤ :=
  if q - ⌊q⌋ < 1 / 2 then ⌊q⌋
  else if 1 / 2 < q - ⌊q⌋ then ⌊q⌋ + 1
  else if ⌊q⌋ % 2 = 0 then ⌊q⌋ else ⌊q⌋ + 1

/-- The binary64 value nearest to the rational `q` (round to nearest, ties to even):
with `e = ⌊log₂ |q|⌋` the significand `q / 2^(e - 52)` is rounded to an integer. -/
def binary64 (q : ℚ) : ℚ :=
  if q = 0 then 0
  else (roundHalfEven (q / (2 : ℚ) ^ (Int.log 2 |q| - 52)) : ℚ) * (2 : ℚ) ^ (Int.log 2 |q| - 52)

/-- `Math.round(x)`: the nearest integer, ties towards plus infinity. -/
def mathRound (x : ℚ) : ℤ := ⌊x + 1 / 2⌋

/-- `x.toFixed(digits)` as the integer `n` whose decimal `n / 10^digits` is printed:
the `n` for which `n / 10^digits - |x|` is closest to zero, the larger one on a tie,
with the sign of `x` put back. -/
def toFixed (digits : ℕ) (x : ℚ) : ℤ :=
  if x < 0 then -⌊-x * (10 : ℚ) ^ digits + 1 / 2⌋ else ⌊x * (10 : ℚ) ^ digits + 1 / 2⌋

/-! ## Simulated live data -/

def PARIS_ZONES : List String :=
  ["Marais", "Montmartre", "Saint-Germain", "Bastille", "Oberkampf",
   "République", "Nation", "Belleville", "Pigalle", "Châtelet",
   "Opéra", "Batignolles", "Canal St-Martin", "Buttes-Chaumont"]

def TERRASSES : List String :=
  ["Le Perchoir Marais", "Café de Flore", "Les Deux Magots",
   "Brasserie Lipp", "Chez Janou", "Le Baron Rouge",
   "Café Charlot", "Le Progrès", "Rosa Bonheur", "Pavillon Puebla",
   "La Rotonde", "Terminus Nord", "L'Entrepôt", "Le Select"]

def QUERY_TYPES : List String := ["TOP 20", "CARTE", "EXPOSÉES", "ANALYSE"]

/-- One value returned by `Math.random()`: a binary64 in `[0, 1)`, the significand
`mant` below 2^53 scaled by `2^exp`. -/
structure Draw where
  mant : ℕ
  exp : ℤ
  mant_lt : mant < 2 ^ 53
  lt_one : (mant : ℚ) * (2 : ℚ) ^ exp < 1

/-- The value of a draw. -/
def Draw.val (r : Draw) : ℚ := (r.mant : ℚ) * (2 : ℚ) ^ r.exp

/-- `arr[Math.floor(Math.random() * arr.length)]`; `none` is `undefined`. -/
def randomFrom (arr : List String) (r : Draw) : Option String :=
  arr[(⌊binary64 (r.val * (arr.length : ℚ))⌋).toNat]?

/-- `Math.floor(Math.random() * (max - min + 1)) + min` as the binary64 it evaluates to;
`min` and `max` are the values of the two arguments. -/
def randomIntNumber (min max : ℤ) (r : Draw) : ℚ :=
  binary64 (((⌊binary64 (r.val * binary64 (binary64 ((max : ℚ) - (min : ℚ)) + 1))⌋ : ℤ) : ℚ) +
    (min : ℚ))

/-- `randomInt(min, max)`: the value of `randomIntNumber`, which is an integer
(`randomIntNumber_isInt`), as an integer. -/
def randomInt (min max : ℤ) (r : Draw) : ℤ := ⌊randomIntNumber min max r⌋

/-- A request record. `lat` and `lng` hold the digits printed by `toFixed(4)`
as a number of ten-thousandths of a degree. -/
structure Event where
  id : ℕ
  type : Option String
  zone : Option String
  terrace : Option String
  sun : ℤ
  time : ℤ
  lat : ℤ
  lng : ℤ
deriving DecidableEq

/-- The calls of `Math.random()` made by one call of `generateRequest`, in order;
`rTerrace` is consumed only when the type is `"CARTE"`. -/
structure Draws where
  rType : Draw
  rZone : Draw
  rSun : Draw
  rTerrace : Draw
  rLat : Draw
  rLng : Draw

/-- `generateRequest(id)`, with the random draws and the value of `new Date()`. -/
def generateRequest (id : ℕ) (d : Draws) (now : ℤ) : Event :=
  let type := randomFrom QUERY_TYPES d.rType
  { id := id
    type := type
    zone := randomFrom PARIS_ZONES d.rZone
    terrace := if type = some "CARTE" then randomFrom TERRASSES d.rTerrace else none
    sun := randomInt 62 98 d.rSun
    time := now
    lat := toFixed 4 (binary64 (binary64 (4885 / 100) +
      binary64 (binary64 (d.rLat.val - 1 / 2) * binary64 (12 / 100))))
    lng := toFixed 4 (binary64 (binary64 (235 / 100) +
      binary64 (binary64 (d.rLng.val - 1 / 2) * binary64 (15 / 100)))) }

/-- What the module reads from its environment while it builds `INITIAL`: the draws
of the `i`-th `generateRequest`, its `new Date()`, and the `Date.now()` of the
`i`-th call of the `map` callback. -/
structure SeedEnv where
  draws : ℕ → Draws
  genNow : ℕ → ℤ
  mapNow : ℕ → ℤ

/-- `Array.from({ length: 9 }, (_, i) => generateRequest(i + 1))
  .map((r, i) => ({ ...r, time: new Date(Date.now() - (9 - i) * 14000) }))`. -/
def INITIAL (env : SeedEnv) : List Event :=
  (List.range 9).map fun i =>
    { generateRequest (i + 1) (env.draws i) (env.genNow i) with
      time := env.mapNow i - (9 - (i : ℤ)) * 14000 }

/-- The updater of `setRequests`: `prev => [req, ...prev.slice(0, 49)]`. -/
def push (prev : List Event) (req : Event) : List Event :=
  req :: prev.take 49

/-- `requests.reduce((s, r) => s + r.sun, 0)`. -/
def sumSun (requests : List Event) : ℤ :=
  requests.foldl (fun s r => s + r.sun) 0

/-- `Math.round(requests.reduce((s, r) => s + r.sun, 0) / requests.length)`;
`none` is the `NaN` of an empty list. -/
def avgSun (requests : List Event) : Option ℤ :=
  if requests.length = 0 then none
  else some (mathRound (binary64 ((sumSun requests : ℚ) / (requests.length : ℚ))))

/-! ## The component state and its timer callbacks -/

/-- `new Set([...s, id])`: a set kept in insertion order. -/
def setAdd (s : List ℕ) (id : ℕ) : List ℕ :=
  if id ∈ s then s else s ++ [id]

/-- `ns = new Set(s); ns.delete(id)`. -/
def setDelete (s : List ℕ) (id : ℕ) : List ℕ :=
  s.filter fun x => x ≠ id

/-- The state of a mounted `LiveRequestsPanel`: the React state (`requests`, `newIds`,
`total`, `rps`), the refs (`nextId`, `rpsRef`), the flag `cancelled` of the streaming
effect, and the timers armed by `setTimeout`: the delay timer of `scheduleNext`
(`pending`, its due time) and the removal timers (`removals`, due time and id).
`clock` is the time of the latest callback. `rps` is the decimal that
`toFixed(1)` printed and unary plus read back. -/
structure Engine where
  requests : List Event
  newIds : List ℕ
  total : ℕ
  rps : ℚ
  nextId : ℕ
  rpsRef : List ℤ
  cancelled : Bool
  pending : Option ℤ
  removals : List (ℤ × ℕ)
  clock : ℤ

/-- What can happen to a mounted component: the delay timer of `scheduleNext` fires
(`fire`, with the clock reading, the draws of `generateRequest` and the draw of the next
delay), a removal timer of `id` fires (`expire`), the cleanup of the streaming effect
runs (`cancel`), the interval of the RPS meter fires (`meter`). -/
inductive Action where
  | fire (now : ℤ) (d : Draws) (rDelay : Draw)
  | expire (now : ℤ) (id : ℕ)
  | cancel
  | meter (now : ℤ)

/-- The actions of the streaming effect. -/
def Action.isStream : Action → Bool
  | .meter _ => false
  | _ => true

/-- The state after the first render and the run of the effects at time `t0`:
`scheduleNext()` has armed the first delay timer. -/
def mount (env : SeedEnv) (t0 : ℤ) (r0 : Draw) : Engine :=
  { requests := INITIAL env
    newIds := []
    total := (INITIAL env).length
    rps := 0
    nextId := (INITIAL env).length + 1
    rpsRef := []
    cancelled := false
    pending := some (t0 + randomInt 1800 5000 r0)
    removals := []
    clock := t0 }

/-- The callback of the delay timer, run at time `now` on a state where it is not
cancelled. -/
def arrive (s : Engine) (now : ℤ) (d : Draws) (rDelay : Draw) : Engine :=
  let req := generateRequest s.nextId d now
  { s with
    nextId := s.nextId + 1
    requests := push s.requests req
    newIds := setAdd s.newIds req.id
    total := s.total + 1
    rpsRef := s.rpsRef ++ [now]
    removals := s.removals ++ [(now + 2200, req.id)]
    pending := some (now + randomInt 1800 5000 rDelay)
    clock := now }

/-- The callback of the RPS meter interval. -/
def recompute (s : Engine) (now : ℤ) : Engine :=
  let kept := s.rpsRef.filter fun ts => now - ts < 60000
  { s with
    rpsRef := kept
    rps := (toFixed 1 (binary64 ((kept.length : ℚ) / 60)) : ℚ) / 10
    clock := now }

/-- One transition; `none` when the action cannot happen in `s` (no such timer is armed,
it is not due yet, or the time would run backwards). -/
def step (s : Engine) : Action → Option Engine
  | .fire now d rDelay =>
    match s.pending with
    | none => none
    | some due =>
      if due ≤ now ∧ s.clock ≤ now then
        if s.cancelled then some { s with pending := none, clock := now }
        else some (arrive s now d rDelay)
      else none
  | .expire now id =>
    match s.removals.find? fun p => p.2 = id ∧ p.1 ≤ now with
    | none => none
    | some p =>
      if s.clock ≤ now then
        some { s with
          newIds := setDelete s.newIds id
          removals := s.removals.erase p
          clock := now }
      else none
  | .cancel => some { s with cancelled := true }
  | .meter now => if s.clock ≤ now then some (recompute s now) else none

/-- The state after a list of actions, `none` if one of them cannot happen. -/
def run (s : Engine) : List Action → Option Engine
  | [] => some s
  | a :: as => (step s a).bind fun s1 => run s1 as

/-- The request created by one action, if it creates one. -/
def created (s : Engine) : Action → Option Event
  | .fire now d _ =>
    match s.pending with
    | none => none
    | some due =>
      if due ≤ now ∧ s.clock ≤ now ∧ s.cancelled = false then
        some (generateRequest s.nextId d now)
      else none
  | _ => none

/-- The requests created along a list of actions, in the order of creation. -/
def generated (s : Engine) : List Action → List Event
  | [] => []
  | a :: as =>
    match step s a with
    | none => []
    | some s1 => (created s a).toList ++ generated s1 as

/-- Newest first: in every adjacent pair the earlier element was created no earlier than the
later one and has the greater id. -/
def NewestFirst (l : List Event) : Prop :=
  l.Chain' fun a b => b.time ≤ a.time ∧ b.id < a.id

/-- The buffer holds pairwise distinct ids, all below the counter. -/
def IdsBelow (s : Engine) : Prop :=
  (s.requests.map fun e => e.id).Nodup ∧ ∀ e ∈ s.requests, e.id < s.nextId

/-- What a cancelled streaming effect leaves alone, relative to a state `s0`. -/
def Frozen (s0 s : Engine) : Prop :=
  s.cancelled = true ∧ s.requests = s0.requests ∧ s.total = s0.total ∧
  s.nextId = s0.nextId ∧ (s.pending = none ∨ s.pending = s0.pending) ∧
  s.rpsRef.Sublist s0.rpsRef

/-- As long as `i` is in the fresh set, a removal timer of `i` due by `deadline` is armed;
and `i` is below the counter, so that no later request gets it. -/
def HasTimer (i : ℕ) (deadline : ℤ) (s : Engine) : Prop :=
  i < s.nextId ∧ (i ∈ s.newIds → ∃ p ∈ s.removals, p.2 = i ∧ p.1 ≤ deadline)

/-- Every score in the buffer is one that `randomInt(62, 98)` returns. -/
def ScoresInRange (s : Engine) : Prop :=
  ∀ e ∈ s.requests, 62 ≤ e.sun ∧ e.sun ≤ 98

/-- The draw 1/2. -/
def halfDraw : Draw := ⟨1, -1, by norm_num, by norm_num⟩

/-- Constant draws for the instances. -/
def sampleDraws : Draws :=
  { rType := halfDraw
    rZone := halfDraw
    rSun := halfDraw
    rTerrace := halfDraw
    rLat := halfDraw
    rLng := halfDraw }

/-- A module load at time 1000000 with constant draws, for the instances. -/
def sampleEnv : SeedEnv :=
  { draws := fun _ => sampleDraws
    genNow := fun _ => 1000000
    mapNow := fun _ => 1000000 }

/-- The draw that makes `randomInt min max` return `k`: the largest multiple of `2^-53`
not above `(k - min + 1/2) / (max - min + 1)`. -/
def drawFor (min max k : ℤ) (h1 : min ≤ k) (h2 : k ≤ max) : Draw where
  mant := (((2 * (k - min) + 1) * 2 ^ 52) / (max - min + 1)).toNat
  exp := -53
  mant_lt := by
    have hn : (0 : ℤ) < max - min + 1 := by omega
    have hq : ((2 * (k - min) + 1) * 2 ^ 52) / (max - min + 1) < 2 ^ 53 := by
      apply Int.ediv_lt_of_lt_mul hn
      have : 2 * (k - min) + 1 < 2 * (max - min + 1) := by omega
      calc (2 * (k - min) + 1) * 2 ^ 52 < 2 * (max - min + 1) * 2 ^ 52 :=
            Int.mul_lt_mul_of_pos_right this (by norm_num)
        _ = 2 ^ 53 * (max - min + 1) := by ring
    have h0 : 0 ≤ ((2 * (k - min) + 1) * 2 ^ 52) / (max - min + 1) :=
      Int.ediv_nonneg (mul_nonneg (by omega) (by norm_num)) hn.le
    omega
  lt_one := by
    have hn : (0 : ℤ) < max - min + 1 := by omega
    have hq : ((2 * (k - min) + 1) * 2 ^ 52) / (max - min + 1) < 2 ^ 53 := by
      apply Int.ediv_lt_of_lt_mul hn
      have : 2 * (k - min) + 1 < 2 * (max - min + 1) := by omega
      calc (2 * (k - min) + 1) * 2 ^ 52 < 2 * (max - min + 1) * 2 ^ 52 :=
            Int.mul_lt_mul_of_pos_right this (by norm_num)
        _ = 2 ^ 53 * (max - min + 1) := by ring
    have h0 : 0 ≤ ((2 * (k - min) + 1) * 2 ^ 52) / (max - min + 1) :=
      Int.ediv_nonneg (mul_nonneg (by omega) (by norm_num)) hn.le
    have hm : ((((2 * (k - min) + 1) * 2 ^ 52) / (max - min + 1)).toNat : ℤ) < 2 ^ 53 := by
      omega
    have hmq : (((((2 * (k - min) + 1) * 2 ^ 52) / (max - min + 1)).toNat : ℕ) : ℚ) < 2 ^ 53 := by
      exact_mod_cast hm
    rw [zpow_neg, ← div_eq_mul_inv, div_lt_one (by positivity)]
    exact_mod_cast hmq

/-- A state whose `rpsRef` holds 120 arrivals, one every 500 ms from 500 to 60000. -/
def busyState : Engine :=
  { mount sampleEnv 0 halfDraw with
    rpsRef := (List.range 120).map fun i => 500 * ((i : ℤ) + 1) }

/-- The mounted component after one arrival at time 0. -/
def oneArrival : Engine :=
  arrive (mount sampleEnv (-5000) halfDraw) 0 sampleDraws halfDraw

/-- Nine requests with the scores 70, 75, 80, 85, 90, 65, 72, 88, 95. -/
def nineScores : List Event :=
  [70, 75, 80, 85, 90, 65, 72, 88, 95].map fun (v : ℤ) =>
    { id := 0, type := none, zone := none, terrace := none, sun := v, time := 0,
      lat := 0, lng := 0 }

/-- The numbers 1 to 51 as requests, for the instance of `fifty_one_pushes`. -/
def sampleEvents : List Event :=
  (List.range 51).map fun i =>
    { id := i + 1, type := none, zone := none, terrace := none, sun := 62, time := 0,
      lat := 0, lng := 0 }

/-! ## Rounding -/

theorem roundHalfEven_err (q : ℚ) : |((roundHalfEven q : ℤ) : ℚ) - q| ≤ 1 / 2 := by
  have h1 := Int.floor_le q
  have h2 := Int.lt_floor_add_one q
  unfold roundHalfEven
  rw [abs_le]
  split_ifs with ha hb hc
  · constructor <;> linarith
  · push_cast; constructor <;> linarith
  · constructor <;> linarith
  · push_cast; constructor <;> linarith

theorem roundHalfEven_intCast (z : ℤ) : roundHalfEven (z : ℚ) = z := by
  simp [roundHalfEven]

theorem binary64_err (q : ℚ) : |binary64 q - q| ≤ |q| / 2 ^ 53 := by
  by_cases hq : q = 0
  · simp [binary64, hq]
  · have habs : 0 < |q| := abs_pos.mpr hq
    have hu : (0 : ℚ) < (2 : ℚ) ^ (Int.log 2 |q| - 52) := zpow_pos (by norm_num) _
    have hr := roundHalfEven_err (q / (2 : ℚ) ^ (Int.log 2 |q| - 52))
    have hlog : (2 : ℚ) ^ Int.log 2 |q| ≤ |q| := by
      have := Int.zpow_log_le_self (b := 2) (by norm_num) habs
      simpa using this
    have hsplit : (2 : ℚ) ^ (Int.log 2 |q| - 52) = (2 : ℚ) ^ Int.log 2 |q| / 2 ^ 52 := by
      rw [zpow_sub₀ (by norm_num : (2 : ℚ) ≠ 0)]
      norm_cast
    have heq : binary64 q - q =
        (((roundHalfEven (q / (2 : ℚ) ^ (Int.log 2 |q| - 52)) : ℤ) : ℚ) -
          q / (2 : ℚ) ^ (Int.log 2 |q| - 52)) * (2 : ℚ) ^ (Int.log 2 |q| - 52) := by
      rw [binary64, if_neg hq, sub_mul, div_mul_cancel₀ _ hu.ne']
    rw [heq, abs_mul, abs_of_pos hu]
    calc _ ≤ 1 / 2 * (2 : ℚ) ^ (Int.log 2 |q| - 52) := mul_le_mul_of_nonneg_right hr hu.le
      _ = (2 : ℚ) ^ Int.log 2 |q| / 2 ^ 53 := by rw [hsplit]; ring
      _ ≤ |q| / 2 ^ 53 := div_le_div_of_nonneg_right hlog (by positivity)

theorem binary64_exact (z j : ℤ) (hz : |z| < 2 ^ 53) :
    binary64 ((z : ℚ) * (2 : ℚ) ^ j) = (z : ℚ) * (2 : ℚ) ^ j := by
  by_cases hq : (z : ℚ) * (2 : ℚ) ^ j = 0
  · simp [binary64, hq]
  · have h2j : (0 : ℚ) < (2 : ℚ) ^ j := zpow_pos (by norm_num) _
    have habs : 0 < |(z : ℚ) * (2 : ℚ) ^ j| := abs_pos.mpr hq
    have hlt : |(z : ℚ) * (2 : ℚ) ^ j| < ((2 : ℕ) : ℚ) ^ (53 + j) := by
      rw [abs_mul, abs_of_pos h2j, zpow_add₀ (by norm_num)]
      apply mul_lt_mul_of_pos_right _ h2j
      have h3 : |(z : ℚ)| < (2 : ℚ) ^ (53 : ℕ) := by exact_mod_cast hz
      norm_num at h3 ⊢
      exact h3
    have he : Int.log 2 |(z : ℚ) * (2 : ℚ) ^ j| < 53 + j :=
      (Int.lt_zpow_iff_log_lt (by norm_num) habs).mp hlt
    rw [binary64, if_neg hq]
    generalize Int.log 2 |(z : ℚ) * (2 : ℚ) ^ j| = e at he
    obtain ⟨k, hk⟩ : ∃ k : ℕ, j - (e - 52) = k := ⟨(j - (e - 52)).toNat, by omega⟩
    have hdiv : (z : ℚ) * (2 : ℚ) ^ j / (2 : ℚ) ^ (e - 52) = ((z * 2 ^ k : ℤ) : ℚ) := by
      rw [mul_div_assoc, ← zpow_sub₀ (by norm_num : (2 : ℚ) ≠ 0), hk]
      push_cast
      rw [zpow_natCast]
    rw [hdiv, roundHalfEven_intCast]
    push_cast
    rw [mul_assoc, ← zpow_natCast, ← zpow_add₀ (by norm_num : (2 : ℚ) ≠ 0), ← hk]
    congr 2
    ring
theorem binary64_div_err (S : ℤ) (L : ℕ) (hL : 0 < L) (hS : |S| < 2 ^ 52) :
    |binary64 ((S : ℚ) / L) - (S : ℚ) / L| < 1 / (2 * L) := by
  have hLq : (0 : ℚ) < L := by exact_mod_cast hL
  have hL1 : (1 : ℚ) ≤ L := by exact_mod_cast hL
  have hSq : |(S : ℚ)| < 2 ^ 52 := by exact_mod_cast hS
  calc |binary64 ((S : ℚ) / L) - (S : ℚ) / L| ≤ |(S : ℚ) / L| / 2 ^ 53 := binary64_err _
    _ = |(S : ℚ)| / (2 ^ 53 * L) := by rw [abs_div, abs_of_pos hLq, div_div, mul_comm]
    _ < 2 ^ 52 / (2 ^ 53 * L) := div_lt_div_of_pos_right hSq (by positivity)
    _ = 1 / (2 * L) := by field_simp; ring

theorem mathRound_binary64_div (S : ℤ) (L : ℕ) (hL : 0 < L) (hS : |S| < 2 ^ 52) :
    mathRound (binary64 ((S : ℚ) / L)) = ⌊(S : ℚ) / L + 1 / 2⌋ := by
  have hLq : (0 : ℚ) < L := by exact_mod_cast hL
  have hL1 : (1 : ℚ) ≤ L := by exact_mod_cast hL
  have hSq : |(S : ℚ)| < 2 ^ 52 := by exact_mod_cast hS
  have herr := abs_lt.mp (binary64_div_err S L hL hS)
  have hxL : (S : ℚ) / L * L = S := div_mul_cancel₀ _ hLq.ne'
  have h1 : ((⌊(S : ℚ) / L + 1 / 2⌋ : ℤ) : ℚ) ≤ (S : ℚ) / L + 1 / 2 := Int.floor_le _
  have h2 : (S : ℚ) / L + 1 / 2 < ⌊(S : ℚ) / L + 1 / 2⌋ + 1 := Int.lt_floor_add_one _
  generalize ⌊(S : ℚ) / L + 1 / 2⌋ = n at h1 h2
  have hinv : 1 / (2 * (L : ℚ)) * (2 * L) = 1 := by field_simp
  unfold mathRound
  rw [Int.floor_eq_iff]
  constructor
  · by_cases htie : (S : ℚ) / L = n - 1 / 2
    · have hx2 : (S : ℚ) / L = ((2 * n - 1 : ℤ) : ℚ) * (2 : ℚ) ^ (-1 : ℤ) := by
        rw [htie]; push_cast; norm_num; ring
      have hb : |2 * n - 1| < 2 ^ 53 := by
        have h3 : |((2 * n - 1 : ℤ) : ℚ)| < 2 ^ 53 := by
          have h4 : ((2 * n - 1 : ℤ) : ℚ) = 2 * ((S : ℚ) / L) := by rw [htie]; push_cast; ring
          rw [h4, abs_mul, abs_div, abs_of_pos hLq]
          have h5 : |(S : ℚ)| / L ≤ |(S : ℚ)| := div_le_self (abs_nonneg _) hL1
          norm_num
          linarith
        exact_mod_cast h3
      rw [hx2, binary64_exact _ _ hb, ← hx2, htie]
      linarith
    · have hlt : (n : ℚ) - 1 / 2 < (S : ℚ) / L := lt_of_le_of_ne (by linarith) (Ne.symm htie)
      have hint : 2 * n * L - L + 1 ≤ 2 * S := by
        have h3 : ((2 * n * L - L : ℤ) : ℚ) < ((2 * S : ℤ) : ℚ) := by
          push_cast
          have := mul_lt_mul_of_pos_right hlt hLq
          rw [hxL] at this
          linarith
        have h4 : 2 * n * L - L < 2 * S := by exact_mod_cast h3
        omega
      have hq : (2 * n * L - L + 1 : ℚ) ≤ 2 * S := by exact_mod_cast hint
      have h6 : ((n : ℚ) - 1 / 2 + 1 / (2 * L)) * (2 * L) ≤ (S : ℚ) / L * (2 * L) := by
        have : (S : ℚ) / L * (2 * L) = 2 * S := by
          calc (S : ℚ) / L * (2 * L) = 2 * ((S : ℚ) / L * L) := by ring
            _ = 2 * S := by rw [hxL]
        rw [this, add_mul, hinv]
        linarith
      have h7 := le_of_mul_le_mul_right h6 (by positivity : (0 : ℚ) < 2 * L)
      linarith [herr.1]
  · have hint : 2 * S + 1 ≤ 2 * n * L + L := by
      have h3 : ((2 * S : ℤ) : ℚ) < ((2 * n * L + L : ℤ) : ℚ) := by
        push_cast
        have := mul_lt_mul_of_pos_right h2 hLq
        rw [add_mul, hxL] at this
        linarith
      have h4 : 2 * S < 2 * n * L + L := by exact_mod_cast h3
      omega
    have hq : (2 * S + 1 : ℚ) ≤ 2 * n * L + L := by exact_mod_cast hint
    have h6 : (S : ℚ) / L * (2 * L) ≤ ((n : ℚ) + 1 / 2 - 1 / (2 * L)) * (2 * L) := by
      have : (S : ℚ) / L * (2 * L) = 2 * S := by
        calc (S : ℚ) / L * (2 * L) = 2 * ((S : ℚ) / L * L) := by ring
          _ = 2 * S := by rw [hxL]
      rw [this, sub_mul, hinv]
      linarith
    have h7 := le_of_mul_le_mul_right h6 (by positivity : (0 : ℚ) < 2 * L)
    linarith [herr.2]

theorem toFixed_binary64_div60 (c : ℕ) (hc : c < 2 ^ 32) :
    6 * toFixed 1 (binary64 ((c : ℚ) / 60)) ≤ (c : ℤ) + 3 ∧
    (c : ℤ) ≤ 6 * toFixed 1 (binary64 ((c : ℚ) / 60)) + 3 := by
  have hc1 : c < 4294967296 := by norm_num at hc; exact hc
  have hcq : (c : ℚ) < 4294967296 := by exact_mod_cast hc1
  have hc0 : (0 : ℚ) ≤ c := Nat.cast_nonneg c
  have herr := abs_le.mp (binary64_err ((c : ℚ) / 60))
  rw [abs_of_nonneg (div_nonneg hc0 (by norm_num))] at herr
  have hy0 : ¬ binary64 ((c : ℚ) / 60) < 0 := by
    have : (0 : ℚ) ≤ (c : ℚ) / 60 - (c : ℚ) / 60 / 2 ^ 53 := by
      have : (c : ℚ) / 60 / 2 ^ 53 ≤ (c : ℚ) / 60 :=
        div_le_self (div_nonneg hc0 (by norm_num)) (by norm_num)
      linarith
    linarith [herr.1]
  unfold toFixed
  rw [if_neg hy0]
  have h1 := Int.floor_le (binary64 ((c : ℚ) / 60) * (10 : ℚ) ^ 1 + 1 / 2)
  have h2 := Int.lt_floor_add_one (binary64 ((c : ℚ) / 60) * (10 : ℚ) ^ 1 + 1 / 2)
  generalize ⌊binary64 ((c : ℚ) / 60) * (10 : ℚ) ^ 1 + 1 / 2⌋ = n at h1 h2
  have hsmall : (c : ℚ) / 60 / 2 ^ 53 < 1 / 600 := by
    rw [div_div, div_lt_div_iff₀ (by norm_num) (by norm_num)]
    norm_num
    linarith
  constructor
  · have h3 : ((6 * n : ℤ) : ℚ) < ((c + 4 : ℤ) : ℚ) := by
      push_cast
      linarith [herr.2]
    have h4 : 6 * n < c + 4 := by exact_mod_cast h3
    omega
  · have h3 : ((c : ℤ) : ℚ) < ((6 * n + 4 : ℤ) : ℚ) := by
      push_cast
      linarith [herr.1]
    have h4 : (c : ℤ) < 6 * n + 4 := by exact_mod_cast h3
    omega
/-! ## Random integers -/

theorem binary64_intCast (z : ℤ) (hz : |z| < 2 ^ 53) : binary64 (z : ℚ) = z := by
  have := binary64_exact z 0 hz
  simpa using this

theorem binary64_int (z : ℤ) : ((⌊binary64 (z : ℚ)⌋ : ℤ) : ℚ) = binary64 (z : ℚ) := by
  by_cases hz : |z| < 2 ^ 53
  · rw [binary64_intCast z hz, Int.floor_intCast]
  · have hge : (2 : ℤ) ^ 53 ≤ |z| := by omega
    have hq : (z : ℚ) ≠ 0 := by
      intro h0
      have : z = 0 := by exact_mod_cast h0
      rw [this] at hge
      norm_num at hge
    have hpos : 0 < |(z : ℚ)| := abs_pos.mpr hq
    have hlog : (53 : ℤ) ≤ Int.log 2 |(z : ℚ)| := by
      apply (Int.zpow_le_iff_le_log (b := 2) (x := 53) (by norm_num) hpos).mp
      have h3 : (2 : ℚ) ^ (53 : ℕ) ≤ |(z : ℚ)| := by exact_mod_cast hge
      norm_num at h3 ⊢
      exact h3
    rw [binary64, if_neg hq]
    generalize Int.log 2 |(z : ℚ)| = e at hlog
    obtain ⟨t, ht⟩ : ∃ t : ℕ, e - 52 = t := ⟨(e - 52).toNat, by omega⟩
    rw [ht, zpow_natCast]
    have hcast : ((roundHalfEven ((z : ℚ) / (2 : ℚ) ^ t) : ℤ) : ℚ) * (2 : ℚ) ^ t =
        ((roundHalfEven ((z : ℚ) / (2 : ℚ) ^ t) * 2 ^ t : ℤ) : ℚ) := by push_cast; ring
    rw [hcast, Int.floor_intCast]

theorem randomIntNumber_isInt (min max : ℤ) (r : Draw) :
    ((randomInt min max r : ℤ) : ℚ) = randomIntNumber min max r := by
  unfold randomInt randomIntNumber
  rw [← Int.cast_add]
  exact binary64_int _

theorem Draw.val_nonneg (r : Draw) : 0 ≤ r.val :=
  mul_nonneg (Nat.cast_nonneg _) (zpow_pos (by norm_num) _).le

theorem Draw.val_le (r : Draw) : r.val ≤ 1 - 1 / 2 ^ 53 := by
  have hlt := r.lt_one
  have hm : (r.mant : ℚ) < 2 ^ 53 := by exact_mod_cast r.mant_lt
  unfold Draw.val
  by_cases h1 : r.exp < -53
  · have h2 : (2 : ℚ) ^ r.exp ≤ (2 : ℚ) ^ (-54 : ℤ) :=
      zpow_le_zpow_right₀ (by norm_num) (by omega)
    have h3 : (r.mant : ℚ) * (2 : ℚ) ^ r.exp ≤ 2 ^ 53 * (2 : ℚ) ^ (-54 : ℤ) :=
      mul_le_mul hm.le h2 (zpow_pos (by norm_num) _).le (by positivity)
    have h4 : (2 : ℚ) ^ 53 * (2 : ℚ) ^ (-54 : ℤ) = 1 / 2 := by
      rw [zpow_neg]; norm_num
    rw [h4] at h3
    have : (1 : ℚ) / 2 ≤ 1 - 1 / 2 ^ 53 := by norm_num
    linarith
  · by_cases h0 : 0 ≤ r.exp
    · have h2 : (1 : ℚ) ≤ (2 : ℚ) ^ r.exp := one_le_zpow₀ (by norm_num) h0
      have h3 : (r.mant : ℚ) < 1 := by
        by_contra hge
        push_neg at hge
        have : (1 : ℚ) ≤ (r.mant : ℚ) * (2 : ℚ) ^ r.exp := by
          calc (1 : ℚ) = 1 * 1 := by ring
            _ ≤ (r.mant : ℚ) * (2 : ℚ) ^ r.exp := mul_le_mul hge h2 (by norm_num) (by linarith)
        linarith
      have h4 : r.mant = 0 := by
        have : r.mant < 1 := by exact_mod_cast h3
        omega
      rw [h4]
      norm_num
    · obtain ⟨t, ht⟩ : ∃ t : ℕ, r.exp = -(t : ℤ) := ⟨(-r.exp).toNat, by omega⟩
      have ht53 : t ≤ 53 := by omega
      have hpow : (2 : ℚ) ^ r.exp = 1 / (2 : ℚ) ^ t := by
        rw [ht, zpow_neg, zpow_natCast, one_div]
      have hpos : (0 : ℚ) < (2 : ℚ) ^ t := by positivity
      rw [hpow] at hlt ⊢
      have h5 : (r.mant : ℚ) < (2 : ℚ) ^ t := by
        rw [mul_one_div, div_lt_one hpos] at hlt
        exact hlt
      have h6 : r.mant + 1 ≤ 2 ^ t := by
        have : r.mant < 2 ^ t := by exact_mod_cast h5
        omega
      have h7 : (r.mant : ℚ) + 1 ≤ (2 : ℚ) ^ t := by exact_mod_cast h6
      have h8 : (2 : ℚ) ^ t ≤ 2 ^ 53 := pow_le_pow_right₀ (by norm_num) ht53
      rw [mul_one_div, div_le_iff₀ hpos]
      have h9 : (1 : ℚ) / 2 ^ 53 * 2 ^ t ≤ 1 := by
        rw [one_div, inv_mul_le_iff₀ (by positivity)]
        linarith
      linarith

theorem binary64_mul_lt (r : Draw) (n : ℚ) (hn : 0 < n) :
    0 ≤ binary64 (r.val * n) ∧ binary64 (r.val * n) < n := by
  have h0 := r.val_nonneg
  have h1 := r.val_le
  have hx0 : 0 ≤ r.val * n := mul_nonneg h0 hn.le
  have herr := abs_le.mp (binary64_err (r.val * n))
  rw [abs_of_nonneg hx0] at herr
  have hsmall : r.val * n / 2 ^ 53 ≤ r.val * n := div_le_self hx0 (by norm_num)
  constructor
  · linarith [herr.1]
  · have h2 : r.val * n ≤ (1 - 1 / 2 ^ 53) * n := mul_le_mul_of_nonneg_right h1 hn.le
    have h3 : binary64 (r.val * n) ≤ r.val * n * (1 + 1 / 2 ^ 53) := by
      have : r.val * n * (1 + 1 / 2 ^ 53) = r.val * n + r.val * n / 2 ^ 53 := by ring
      linarith [herr.2]
    have h4 : r.val * n * (1 + 1 / 2 ^ 53) ≤ (1 - 1 / 2 ^ 53) * n * (1 + 1 / 2 ^ 53) :=
      mul_le_mul_of_nonneg_right h2 (by norm_num)
    have h5 : (1 - 1 / 2 ^ 53) * n * (1 + 1 / 2 ^ 53) < n := by
      have : (1 - 1 / 2 ^ 53) * n * (1 + 1 / 2 ^ 53) = n - n / 2 ^ 106 := by ring
      rw [this]
      have : 0 < n / 2 ^ 106 := by positivity
      linarith
    linarith

theorem span_exact (min max : ℤ) (h : min ≤ max) (hspan : max - min < 2 ^ 53 - 1) :
    binary64 (binary64 ((max : ℚ) - (min : ℚ)) + 1) = ((max - min + 1 : ℤ) : ℚ) := by
  have h1 : binary64 ((max : ℚ) - (min : ℚ)) = ((max - min : ℤ) : ℚ) := by
    rw [← Int.cast_sub]
    exact binary64_intCast _ (by rw [abs_of_nonneg (by omega)]; omega)
  rw [h1]
  have h2 : ((max - min : ℤ) : ℚ) + 1 = ((max - min + 1 : ℤ) : ℚ) := by push_cast; ring
  rw [h2]
  exact binary64_intCast _ (by rw [abs_of_nonneg (by omega)]; omega)

theorem randomIntNumber_eq (min max : ℤ) (r : Draw) (h : min ≤ max)
    (hmin : -(2 ^ 53) < min) (hmax : max < 2 ^ 53) (hspan : max - min < 2 ^ 53 - 1) :
    randomIntNumber min max r =
      ((⌊binary64 (r.val * ((max - min + 1 : ℤ) : ℚ))⌋ + min : ℤ) : ℚ) ∧
    0 ≤ ⌊binary64 (r.val * ((max - min + 1 : ℤ) : ℚ))⌋ ∧
    ⌊binary64 (r.val * ((max - min + 1 : ℤ) : ℚ))⌋ < max - min + 1 := by
  have hn : (0 : ℚ) < ((max - min + 1 : ℤ) : ℚ) := by
    have : (0 : ℤ) < max - min + 1 := by omega
    exact_mod_cast this
  obtain ⟨hp0, hp1⟩ := binary64_mul_lt r _ hn
  have hf0 : 0 ≤ ⌊binary64 (r.val * ((max - min + 1 : ℤ) : ℚ))⌋ := Int.floor_nonneg.mpr hp0
  have hf1 : ⌊binary64 (r.val * ((max - min + 1 : ℤ) : ℚ))⌋ < max - min + 1 :=
    Int.floor_lt.mpr hp1
  refine ⟨?_, hf0, hf1⟩
  unfold randomIntNumber
  rw [span_exact min max h hspan, ← Int.cast_add]
  exact binary64_intCast _ (by rw [abs_lt]; constructor <;> omega)

theorem randomInt_mem (min max : ℤ) (r : Draw) (h : min ≤ max)
    (hmin : -(2 ^ 53) < min) (hmax : max < 2 ^ 53) (hspan : max - min < 2 ^ 53 - 1) :
    min ≤ randomInt min max r ∧ randomInt min max r ≤ max ∧
    ((randomInt min max r : ℤ) : ℚ) = randomIntNumber min max r := by
  obtain ⟨heq, h0, h1⟩ := randomIntNumber_eq min max r h hmin hmax hspan
  unfold randomInt
  rw [heq, Int.floor_intCast]
  refine ⟨by omega, by omega, rfl⟩

theorem randomInt_drawFor (min max k : ℤ) (h1 : min ≤ k) (h2 : k ≤ max)
    (hmin : -(2 ^ 53) < min) (hmax : max < 2 ^ 53) (hspan : max - min < 2 ^ 51) :
    randomInt min max (drawFor min max k h1 h2) = k := by
  have hn : (0 : ℤ) < max - min + 1 := by omega
  have hnq : (0 : ℚ) < ((max - min + 1 : ℤ) : ℚ) := by exact_mod_cast hn
  have h0 : 0 ≤ ((2 * (k - min) + 1) * 2 ^ 52) / (max - min + 1) :=
    Int.ediv_nonneg (mul_nonneg (by omega) (by norm_num)) hn.le
  have hle := Int.ediv_mul_le ((2 * (k - min) + 1) * 2 ^ 52) hn.ne'
  have hlt := Int.lt_ediv_add_one_mul_self ((2 * (k - min) + 1) * 2 ^ 52) hn
  have hval : (drawFor min max k h1 h2).val =
      ((((2 * (k - min) + 1) * 2 ^ 52) / (max - min + 1) : ℤ) : ℚ) / 2 ^ 53 := by
    unfold Draw.val drawFor
    simp only
    rw [zpow_neg, ← div_eq_mul_inv]
    have : (((((2 * (k - min) + 1) * 2 ^ 52) / (max - min + 1)).toNat : ℕ) : ℤ) =
        ((2 * (k - min) + 1) * 2 ^ 52) / (max - min + 1) := Int.toNat_of_nonneg h0
    have hq : (((((2 * (k - min) + 1) * 2 ^ 52) / (max - min + 1)).toNat : ℕ) : ℚ) =
        ((((2 * (k - min) + 1) * 2 ^ 52) / (max - min + 1) : ℤ) : ℚ) := by
      exact_mod_cast this
    rw [hq]
    norm_num
  generalize ((2 * (k - min) + 1) * 2 ^ 52) / (max - min + 1) = m at h0 hle hlt hval
  have hleq : (m : ℚ) * ((max - min + 1 : ℤ) : ℚ) ≤ (2 * ((k : ℚ) - min) + 1) * 2 ^ 52 := by
    exact_mod_cast hle
  have hltq : (2 * ((k : ℚ) - min) + 1) * 2 ^ 52 < ((m : ℚ) + 1) * ((max - min + 1 : ℤ) : ℚ) := by
    exact_mod_cast hlt
  have hnle : ((max - min + 1 : ℤ) : ℚ) ≤ 2 ^ 51 := by
    have : max - min + 1 ≤ 2 ^ 51 := by omega
    exact_mod_cast this
  have hkn : (k : ℚ) - min + 1 ≤ ((max - min + 1 : ℤ) : ℚ) := by
    have : k - min + 1 ≤ max - min + 1 := by omega
    exact_mod_cast this
  have hk0 : (0 : ℚ) ≤ (k : ℚ) - min := by
    have : (0 : ℤ) ≤ k - min := by omega
    exact_mod_cast this
  have hx : (drawFor min max k h1 h2).val * ((max - min + 1 : ℤ) : ℚ) =
      (m : ℚ) * ((max - min + 1 : ℤ) : ℚ) / 2 ^ 53 := by rw [hval]; ring
  have hxup : (drawFor min max k h1 h2).val * ((max - min + 1 : ℤ) : ℚ) ≤
      (k : ℚ) - min + 1 / 2 := by
    rw [hx, div_le_iff₀ (by positivity)]
    linarith
  have hxlow : (k : ℚ) - min + 1 / 4 <
      (drawFor min max k h1 h2).val * ((max - min + 1 : ℤ) : ℚ) := by
    rw [hx, lt_div_iff₀ (by positivity)]
    linarith
  have herr := abs_le.mp (binary64_err
    ((drawFor min max k h1 h2).val * ((max - min + 1 : ℤ) : ℚ)))
  rw [abs_of_nonneg (by linarith)] at herr
  have hsmall : (drawFor min max k h1 h2).val * ((max - min + 1 : ℤ) : ℚ) / 2 ^ 53 < 1 / 4 := by
    rw [div_lt_iff₀ (by positivity)]
    linarith
  have hfloor : ⌊binary64 ((drawFor min max k h1 h2).val * ((max - min + 1 : ℤ) : ℚ))⌋ =
      k - min := by
    have hc : ((k - min : ℤ) : ℚ) = (k : ℚ) - min := Int.cast_sub k min
    rw [Int.floor_eq_iff, hc]
    constructor
    · linarith [herr.1]
    · linarith [herr.2]
  obtain ⟨heq, _, _⟩ := randomIntNumber_eq min max (drawFor min max k h1 h2) (by omega) hmin hmax
    (by omega)
  unfold randomInt
  rw [heq, Int.floor_intCast, hfloor]
  omega

theorem binary64_tie : binary64 (2 ^ 53 + 1) = 2 ^ 53 := by
  have hpos : (0 : ℚ) < 2 ^ 53 + 1 := by positivity
  have hlog : Int.log 2 |(2 ^ 53 + 1 : ℚ)| = 53 := by
    rw [abs_of_pos hpos]
    apply le_antisymm
    · have h := (Int.lt_zpow_iff_log_lt (b := 2) (x := 54) (by norm_num) hpos).mp (by norm_num)
      omega
    · exact (Int.zpow_le_iff_le_log (b := 2) (x := 53) (by norm_num) hpos).mp (by norm_num)
  have hfl : ⌊((2 : ℚ) ^ 53 + 1) / 2⌋ = 2 ^ 52 := by
    rw [Int.floor_eq_iff]
    norm_num
  rw [binary64, if_neg hpos.ne', hlog]
  have h1 : (2 : ℚ) ^ ((53 : ℤ) - 52) = 2 := by norm_num
  rw [h1]
  unfold roundHalfEven
  rw [hfl]
  norm_num

theorem randomInt_misses (r : Draw) : randomInt 0 (2 ^ 53) r < 2 ^ 53 := by
  have hspan : binary64 (binary64 ((((2 : ℤ) ^ 53 : ℤ) : ℚ) - ((0 : ℤ) : ℚ)) + 1) = 2 ^ 53 := by
    have h1 : binary64 ((((2 : ℤ) ^ 53 : ℤ) : ℚ) - ((0 : ℤ) : ℚ)) = 2 ^ 53 := by
      have := binary64_exact 1 53 (by norm_num)
      norm_num at this ⊢
      exact this
    rw [h1, binary64_tie]
  have hprod : binary64 (r.val * 2 ^ 53) = r.val * 2 ^ 53 := by
    have h := binary64_exact (r.mant : ℤ) (r.exp + 53)
      (by rw [abs_of_nonneg (by positivity)]; exact_mod_cast r.mant_lt)
    have h2 : ((r.mant : ℤ) : ℚ) * (2 : ℚ) ^ (r.exp + 53) = r.val * 2 ^ 53 := by
      unfold Draw.val
      rw [zpow_add₀ (by norm_num : (2 : ℚ) ≠ 0)]
      push_cast
      norm_num
      ring
    rw [h2] at h
    exact h
  have hlt : r.val * 2 ^ 53 < 2 ^ 53 := by
    have := r.val_le
    have h3 : r.val < 1 := by
      have : (0 : ℚ) < 1 / 2 ^ 53 := by positivity
      linarith
    calc r.val * 2 ^ 53 < 1 * 2 ^ 53 := mul_lt_mul_of_pos_right h3 (by positivity)
      _ = 2 ^ 53 := one_mul _
  have hge : 0 ≤ r.val * 2 ^ 53 := mul_nonneg r.val_nonneg (by positivity)
  have hf0 : 0 ≤ ⌊r.val * (2 : ℚ) ^ 53⌋ := Int.floor_nonneg.mpr hge
  have hf1 : ⌊r.val * (2 : ℚ) ^ 53⌋ < 2 ^ 53 := by
    rw [Int.floor_lt]
    exact_mod_cast hlt
  unfold randomInt randomIntNumber
  rw [hspan, hprod]
  have hcast : ((⌊r.val * (2 : ℚ) ^ 53⌋ : ℤ) : ℚ) + ((0 : ℤ) : ℚ) =
      ((⌊r.val * (2 : ℚ) ^ 53⌋ : ℤ) : ℚ) := by simp
  rw [hcast, binary64_intCast _ (by rw [abs_of_nonneg hf0]; exact hf1), Int.floor_intCast]
  exact hf1

theorem scores_randomInt (r : Draw) : 62 ≤ randomInt 62 98 r ∧ randomInt 62 98 r ≤ 98 := by
  have h := randomInt_mem 62 98 r (by norm_num) (by norm_num) (by norm_num) (by norm_num)
  exact ⟨h.1, h.2.1⟩

theorem delay_randomInt (r : Draw) :
    1800 ≤ randomInt 1800 5000 r ∧ randomInt 1800 5000 r ≤ 5000 := by
  have h := randomInt_mem 1800 5000 r (by norm_num) (by norm_num) (by norm_num) (by norm_num)
  exact ⟨h.1, h.2.1⟩

/-! ## The history buffer -/

theorem push_eq_take (prev : List Event) (e : Event) : push prev e = (e :: prev).take 50 := by
  simp [push]

theorem take_push (X : List Event) (e : Event) :
    push (X.take 50) e = (e :: X).take 50 := by
  simp [push, List.take_take]

theorem foldl_push_take (es X : List Event) :
    es.foldl push (X.take 50) = (es.reverse ++ X).take 50 := by
  induction es generalizing X with
  | nil => simp
  | cons e es ih =>
    simp only [List.foldl_cons, take_push, ih, List.reverse_cons, List.append_assoc,
      List.singleton_append]

theorem foldl_push (buf es : List Event) (h : es ≠ []) :
    es.foldl push buf = (es.reverse ++ buf).take 50 := by
  cases es with
  | nil => exact absurd rfl h
  | cons e es =>
    simp only [List.foldl_cons, push_eq_take, foldl_push_take, List.reverse_cons,
      List.append_assoc, List.singleton_append]

theorem length_push (prev : List Event) (e : Event) :
    (push prev e).length = min (prev.length + 1) 50 := by
  simp only [push, List.length_cons, List.length_take]
  omega

theorem length_INITIAL (env : SeedEnv) : (INITIAL env).length = 9 := by
  simp [INITIAL]

theorem length_foldl_push_bounds (buf es : List Event) (h9 : 9 ≤ buf.length)
    (h50 : buf.length ≤ 50) :
    9 ≤ (es.foldl push buf).length ∧ (es.foldl push buf).length ≤ 50 := by
  induction es generalizing buf with
  | nil => exact ⟨h9, h50⟩
  | cons e es ih =>
    simp only [List.foldl_cons]
    apply ih
    · rw [length_push]; omega
    · rw [length_push]; omega

/-! ## Transitions -/

theorem step_cases {s s1 : Engine} {a : Action} (h : step s a = some s1) :
    (∃ now d r due, a = .fire now d r ∧ s.pending = some due ∧ due ≤ now ∧ s.clock ≤ now ∧
        s.cancelled = true ∧ s1 = { s with pending := none, clock := now }) ∨
    (∃ now d r due, a = .fire now d r ∧ s.pending = some due ∧ due ≤ now ∧ s.clock ≤ now ∧
        s.cancelled = false ∧ s1 = arrive s now d r) ∨
    (∃ now id p, a = .expire now id ∧
        (s.removals.find? fun p => p.2 = id ∧ p.1 ≤ now) = some p ∧ s.clock ≤ now ∧
        s1 = { s with newIds := setDelete s.newIds id, removals := s.removals.erase p,
                      clock := now }) ∨
    (a = .cancel ∧ s1 = { s with cancelled := true }) ∨
    (∃ now, a = .meter now ∧ s.clock ≤ now ∧ s1 = recompute s now) := by
  cases a with
  | fire now d r =>
    simp only [step] at h
    cases hp : s.pending with
    | none => simp [hp] at h
    | some due =>
      simp only [hp] at h
      by_cases hc : due ≤ now ∧ s.clock ≤ now
      · rw [if_pos hc] at h
        cases hcan : s.cancelled with
        | true =>
          simp only [hcan, if_true, Option.some.injEq] at h
          exact Or.inl ⟨now, d, r, due, rfl, rfl, hc.1, hc.2, rfl, h.symm⟩
        | false =>
          simp only [hcan, Bool.false_eq_true, if_false, Option.some.injEq] at h
          exact Or.inr (Or.inl ⟨now, d, r, due, rfl, rfl, hc.1, hc.2, rfl, h.symm⟩)
      · rw [if_neg hc] at h
        exact absurd h (by simp)
  | expire now id =>
    rw [step] at h
    split at h
    · exact absurd h (by simp)
    · rename_i p hf
      by_cases hc : s.clock ≤ now
      · rw [if_pos hc, Option.some.injEq] at h
        exact Or.inr (Or.inr (Or.inl ⟨now, id, p, rfl, hf, hc, h.symm⟩))
      · rw [if_neg hc] at h
        exact absurd h (by simp)
  | cancel =>
    simp only [step, Option.some.injEq] at h
    exact Or.inr (Or.inr (Or.inr (Or.inl ⟨rfl, h.symm⟩)))
  | meter now =>
    simp only [step] at h
    by_cases hc : s.clock ≤ now
    · rw [if_pos hc, Option.some.injEq] at h
      exact Or.inr (Or.inr (Or.inr (Or.inr ⟨now, rfl, hc, h.symm⟩)))
    · rw [if_neg hc] at h
      exact absurd h (by simp)

theorem run_invariant (P : Engine → Prop)
    (hstep : ∀ s a s1, P s → step s a = some s1 → P s1) :
    ∀ (acts : List Action) (s s1 : Engine), P s → run s acts = some s1 → P s1 := by
  intro acts
  induction acts with
  | nil =>
    intro s s1 hP h
    simp only [run, Option.some.injEq] at h
    exact h ▸ hP
  | cons a as ih =>
    intro s s1 hP h
    simp only [run] at h
    cases hs : step s a with
    | none => simp [hs] at h
    | some s2 =>
      simp only [hs, Option.some_bind] at h
      exact ih s2 s1 (hstep s a s2 hP hs) h

theorem requests_step {s s1 : Engine} {a : Action} (h : step s a = some s1) :
    s1.requests = s.requests ∨ ∃ e, s1.requests = push s.requests e := by
  rcases step_cases h with ⟨_, _, _, _, _, _, _, _, _, rfl⟩ | ⟨now, d, r, _, _, _, _, _, _, rfl⟩ |
    ⟨_, _, _, _, _, _, rfl⟩ | ⟨_, rfl⟩ | ⟨_, _, _, rfl⟩
  · exact Or.inl rfl
  · exact Or.inr ⟨generateRequest s.nextId d now, rfl⟩
  · exact Or.inl rfl
  · exact Or.inl rfl
  · exact Or.inl rfl

theorem ids_INITIAL (env : SeedEnv) :
    (INITIAL env).map (fun e => e.id) = [1, 2, 3, 4, 5, 6, 7, 8, 9] := rfl

theorem run_cons_some {s s1 : Engine} {a : Action} (h : step s a = some s1)
    (as : List Action) : run s (a :: as) = run s1 as := by
  simp [run, h]

theorem generated_cons_some {s s1 : Engine} {a : Action} (h : step s a = some s1)
    (as : List Action) : generated s (a :: as) = (created s a).toList ++ generated s1 as := by
  simp [generated, h]

theorem created_step {s s1 : Engine} {a : Action} (h : step s a = some s1) :
    (∃ now d r, s.cancelled = false ∧ created s a = some (generateRequest s.nextId d now) ∧
        s1 = arrive s now d r) ∨
    (created s a = none ∧ s1.nextId = s.nextId ∧ s1.requests = s.requests ∧
        s1.total = s.total ∧ s1.cancelled = (s.cancelled || s1.cancelled)) := by
  rcases step_cases h with ⟨now, d, r, due, rfl, hp, h1, h2, hc, rfl⟩ |
    ⟨now, d, r, due, rfl, hp, h1, h2, hc, rfl⟩ | ⟨_, _, _, rfl, _, _, rfl⟩ | ⟨rfl, rfl⟩ |
    ⟨_, rfl, _, rfl⟩
  · exact Or.inr ⟨by simp [created, hp, hc], rfl, rfl, rfl, by simp⟩
  · exact Or.inl ⟨now, d, r, hc, by simp [created, hp, h1, h2, hc], rfl⟩
  · exact Or.inr ⟨rfl, rfl, rfl, rfl, by simp⟩
  · exact Or.inr ⟨rfl, rfl, rfl, rfl, by simp⟩
  · exact Or.inr ⟨rfl, rfl, rfl, rfl, by simp [recompute]⟩

theorem generated_ids : ∀ (acts : List Action) (s s1 : Engine), run s acts = some s1 →
    (generated s acts).map (fun e => e.id) = List.range' s.nextId (generated s acts).length ∧
    s1.nextId = s.nextId + (generated s acts).length := by
  intro acts
  induction acts with
  | nil =>
    intro s s1 h
    simp only [run, Option.some.injEq] at h
    subst h
    simp [generated]
  | cons a as ih =>
    intro s s1 h
    cases hs : step s a with
    | none => simp [run, hs] at h
    | some s2 =>
      rw [run_cons_some hs] at h
      obtain ⟨ih1, ih2⟩ := ih s2 s1 h
      rw [generated_cons_some hs]
      rcases created_step hs with ⟨now, d, r, _, hcr, rfl⟩ | ⟨hcr, hn, _, _, _⟩
      · have hn : (arrive s now d r).nextId = s.nextId + 1 := rfl
        rw [hn] at ih1 ih2
        simp only [hcr, Option.toList_some, List.singleton_append, List.map_cons,
          List.length_cons, ih1]
        exact ⟨by simp [generateRequest, List.range'], by omega⟩
      · rw [hn] at ih1 ih2
        simp only [hcr, Option.toList_none, List.nil_append]
        exact ⟨ih1, ih2⟩

theorem idsBelow_mount (env : SeedEnv) (t0 : ℤ) (r0 : Draw) : IdsBelow (mount env t0 r0) := by
  constructor
  · show ((INITIAL env).map fun e => e.id).Nodup
    rw [ids_INITIAL]
    decide
  · intro e he
    have hm : e.id ∈ (INITIAL env).map fun e => e.id := List.mem_map_of_mem _ he
    rw [ids_INITIAL] at hm
    show e.id < (INITIAL env).length + 1
    rw [length_INITIAL]
    simp only [List.mem_cons, List.mem_singleton, List.not_mem_nil, or_false] at hm
    omega

theorem idsBelow_step (s : Engine) (a : Action) (s1 : Engine) (hI : IdsBelow s)
    (h : step s a = some s1) : IdsBelow s1 := by
  rcases created_step h with ⟨now, d, r, _, _, rfl⟩ | ⟨_, hn, hr, _, _⟩
  · obtain ⟨hnd, hlt⟩ := hI
    have hsub : (s.requests.take 49).Sublist s.requests := List.take_sublist _ _
    constructor
    · show ((generateRequest s.nextId d now :: s.requests.take 49).map fun e => e.id).Nodup
      rw [List.map_cons, List.nodup_cons]
      constructor
      · intro hmem
        obtain ⟨e, he, hid⟩ := List.mem_map.mp hmem
        have := hlt e (hsub.subset he)
        have hid2 : e.id = s.nextId := hid
        omega
      · exact hnd.sublist (hsub.map _)
    · intro e he
      show e.id < s.nextId + 1
      have he2 : e ∈ generateRequest s.nextId d now :: s.requests.take 49 := he
      rcases List.mem_cons.mp he2 with rfl | he3
      · exact Nat.lt_succ_self _
      · exact Nat.lt_succ_of_lt (hlt e (hsub.subset he3))
  · unfold IdsBelow
    rw [hn, hr]
    exact hI

theorem generated_cancelled : ∀ (acts : List Action) (s : Engine), s.cancelled = true →
    generated s acts = [] := by
  intro acts
  induction acts with
  | nil => intro s _; rfl
  | cons a as ih =>
    intro s hc
    cases hs : step s a with
    | none => simp [generated, hs]
    | some s2 =>
      rw [generated_cons_some hs]
      rcases created_step hs with ⟨_, _, _, hf, _, _⟩ | ⟨hcr, _, _, _, hc2⟩
      · rw [hc] at hf
        exact absurd hf (by simp)
      · rw [hcr, ih s2 (by rw [hc2, hc]; rfl)]
        rfl

theorem frozen_step (s0 s : Engine) (a : Action) (s1 : Engine) (hF : Frozen s0 s)
    (h : step s a = some s1) : Frozen s0 s1 := by
  obtain ⟨hc, hr, ht, hn, hp, hs⟩ := hF
  rcases step_cases h with ⟨_, _, _, _, _, _, _, _, _, rfl⟩ | ⟨_, _, _, _, _, _, _, _, hc2, _⟩ |
    ⟨_, _, _, _, _, _, rfl⟩ | ⟨_, rfl⟩ | ⟨now, _, _, rfl⟩
  · exact ⟨hc, hr, ht, hn, Or.inl rfl, hs⟩
  · rw [hc] at hc2
    exact absurd hc2 (by simp)
  · exact ⟨hc, hr, ht, hn, hp, hs⟩
  · exact ⟨rfl, hr, ht, hn, hp, hs⟩
  · exact ⟨hc, hr, ht, hn, hp, (List.filter_sublist _).trans hs⟩

theorem rpsRef_stream : ∀ (acts : List Action) (s s1 : Engine), s.cancelled = true →
    (∀ a ∈ acts, a.isStream = true) → run s acts = some s1 → s1.rpsRef = s.rpsRef := by
  intro acts
  induction acts with
  | nil =>
    intro s s1 _ _ h
    simp only [run, Option.some.injEq] at h
    rw [h]
  | cons a as ih =>
    intro s s1 hc hall h
    cases hs : step s a with
    | none => simp [run, hs] at h
    | some s2 =>
      rw [run_cons_some hs] at h
      have hrest : ∀ b ∈ as, b.isStream = true := fun b hb => hall b (List.mem_cons_of_mem _ hb)
      have ha : a.isStream = true := hall a (List.mem_cons_self _ _)
      rcases step_cases hs with ⟨_, _, _, _, _, _, _, _, _, rfl⟩ |
        ⟨_, _, _, _, _, _, _, _, hc2, _⟩ | ⟨_, _, _, _, _, _, rfl⟩ | ⟨_, rfl⟩ | ⟨now, rfl, _, _⟩
      · have h3 := ih _ s1 (by exact hc) hrest h
        exact h3
      · rw [hc] at hc2
        exact absurd hc2 (by simp)
      · have h3 := ih _ s1 (by exact hc) hrest h
        exact h3
      · have h3 := ih _ s1 (by rfl) hrest h
        exact h3
      · exact absurd ha (by simp [Action.isStream])

theorem step_fire_mount (env : SeedEnv) (t0 : ℤ) (r0 : Draw) (now : ℤ) (d : Draws) (r : Draw)
    (h : t0 + 5000 ≤ now) :
    step (mount env t0 r0) (.fire now d r) = some (arrive (mount env t0 r0) now d r) := by
  have hd := (randomInt_mem 1800 5000 r0 (by norm_num) (by norm_num) (by norm_num)
    (by norm_num)).2.1
  have h1 : t0 + randomInt 1800 5000 r0 ≤ now ∧ t0 ≤ now := ⟨by omega, by omega⟩
  simp only [step, mount, h1, and_self, if_true, Bool.false_eq_true, if_false]

theorem run_cancel_fire_mount (env : SeedEnv) (t0 : ℤ) (r0 : Draw) (now : ℤ) (d : Draws)
    (r : Draw) (h : t0 + 5000 ≤ now) :
    run (mount env t0 r0) [.cancel, .fire now d r] =
      some { mount env t0 r0 with cancelled := true, pending := none, clock := now } := by
  have hd := (randomInt_mem 1800 5000 r0 (by norm_num) (by norm_num) (by norm_num)
    (by norm_num)).2.1
  have h1 : t0 + randomInt 1800 5000 r0 ≤ now ∧ t0 ≤ now := ⟨by omega, by omega⟩
  simp only [run, step, mount, Option.some_bind, h1, and_self, if_true]

theorem mem_setAdd_self (l : List ℕ) (i : ℕ) : i ∈ setAdd l i := by
  unfold setAdd
  split
  · assumption
  · simp

theorem mem_setAdd (l : List ℕ) (i j : ℕ) (h : i ∈ setAdd l j) : i ∈ l ∨ i = j := by
  unfold setAdd at h
  split at h
  · exact Or.inl h
  · simpa using h

theorem mem_setDelete (l : List ℕ) (i j : ℕ) : i ∈ setDelete l j ↔ i ∈ l ∧ i ≠ j := by
  simp [setDelete]

theorem hasTimer_step (i : ℕ) (deadline : ℤ) (s : Engine) (a : Action) (s1 : Engine)
    (hT : HasTimer i deadline s) (h : step s a = some s1) : HasTimer i deadline s1 := by
  obtain ⟨hlt, htimer⟩ := hT
  rcases step_cases h with ⟨_, _, _, _, _, _, _, _, _, rfl⟩ | ⟨now, d, r, _, _, _, _, _, _, rfl⟩ |
    ⟨now, id, p, _, hf, _, rfl⟩ | ⟨_, rfl⟩ | ⟨_, _, _, rfl⟩
  · exact ⟨hlt, htimer⟩
  · refine ⟨Nat.lt_succ_of_lt hlt, ?_⟩
    intro hmem
    have hmem2 : i ∈ setAdd s.newIds s.nextId := hmem
    rcases mem_setAdd _ _ _ hmem2 with h1 | h1
    · obtain ⟨q, hq, hq2⟩ := htimer h1
      exact ⟨q, List.mem_append_left _ hq, hq2⟩
    · omega
  · refine ⟨hlt, ?_⟩
    intro hmem
    have hmem2 : i ∈ setDelete s.newIds id := hmem
    obtain ⟨h1, h2⟩ := (mem_setDelete _ _ _).mp hmem2
    obtain ⟨q, hq, hq2, hq3⟩ := htimer h1
    have hp := List.find?_some hf
    simp only [decide_eq_true_eq] at hp
    have hne : q ≠ p := by
      intro heq
      rw [heq, hp.1] at hq2
      exact h2 hq2.symm
    exact ⟨q, (List.mem_erase_of_ne hne).mpr hq, hq2, hq3⟩
  · exact ⟨hlt, htimer⟩
  · exact ⟨hlt, htimer⟩

theorem run_expire_arrive_mount (env : SeedEnv) (t0 : ℤ) (r0 : Draw) (now : ℤ) (d : Draws)
    (r : Draw) (t : ℤ) (h : now + 2200 ≤ t) :
    run (arrive (mount env t0 r0) now d r) [.expire t 10] =
      some { arrive (mount env t0 r0) now d r with newIds := [], removals := [], clock := t } := by
  have h1 : now ≤ t := by omega
  simp [run, step, arrive, mount, length_INITIAL, generateRequest, setAdd, setDelete, h, h1]

theorem buffer_length_bounds (acts : List Action) (s0 s : Engine)
    (h : run s0 acts = some s) (h9 : 9 ≤ s0.requests.length) (h50 : s0.requests.length ≤ 50) :
    9 ≤ s.requests.length ∧ s.requests.length ≤ 50 := by
  refine run_invariant (fun s => 9 ≤ s.requests.length ∧ s.requests.length ≤ 50) ?_
    acts s0 s ⟨h9, h50⟩ h
  intro s a s1 hP hs
  rcases requests_step hs with h1 | ⟨e, h1⟩
  · rw [h1]; exact hP
  · rw [h1, length_push]; omega

/-! ## Scores -/

theorem sumSun_foldl (evs : List Event) (a : ℤ) :
    evs.foldl (fun s r => s + r.sun) a = a + (evs.map fun e => e.sun).sum := by
  induction evs generalizing a with
  | nil => simp
  | cons e es ih =>
    simp only [List.foldl_cons, ih, List.map_cons, List.sum_cons]
    omega

theorem sumSun_eq_sum (evs : List Event) : sumSun evs = (evs.map fun e => e.sun).sum := by
  unfold sumSun
  rw [sumSun_foldl]
  omega

theorem abs_sumSun_le (evs : List Event) : |sumSun evs| ≤ (evs.map fun e => |e.sun|).sum := by
  rw [sumSun_eq_sum]
  induction evs with
  | nil => simp
  | cons e es ih =>
    simp only [List.map_cons, List.sum_cons]
    exact (abs_add _ _).trans (by omega)

theorem avgSun_eq (evs : List Event) (hne : evs ≠ [])
    (hb : (evs.map fun e => |e.sun|).sum < 2 ^ 52) :
    avgSun evs = some ⌊(sumSun evs : ℚ) / (evs.length : ℚ) + 1 / 2⌋ := by
  have hlen : 0 < evs.length := List.length_pos.mpr hne
  unfold avgSun
  rw [if_neg (by omega),
    mathRound_binary64_div (sumSun evs) evs.length hlen (lt_of_le_of_lt (abs_sumSun_le evs) hb)]

theorem sum_abs_sun_le (evs : List Event) (h : ∀ e ∈ evs, 62 ≤ e.sun ∧ e.sun ≤ 98) :
    (evs.map fun e => |e.sun|).sum ≤ 98 * evs.length := by
  induction evs with
  | nil => simp
  | cons e es ih =>
    have h1 := h e (List.mem_cons_self _ _)
    have h2 := ih fun x hx => h x (List.mem_cons_of_mem _ hx)
    simp only [List.map_cons, List.sum_cons, List.length_cons]
    rw [abs_of_nonneg (by omega)]
    push_cast
    omega

theorem scoresInRange_mount (env : SeedEnv) (t0 : ℤ) (r0 : Draw) :
    ScoresInRange (mount env t0 r0) := by
  intro e he
  have he2 : e ∈ INITIAL env := he
  simp only [INITIAL, List.mem_map] at he2
  obtain ⟨i, _, rfl⟩ := he2
  exact scores_randomInt _

theorem scoresInRange_step (s : Engine) (a : Action) (s1 : Engine) (hS : ScoresInRange s)
    (h : step s a = some s1) : ScoresInRange s1 := by
  rcases created_step h with ⟨now, d, r, _, _, rfl⟩ | ⟨_, _, hr, _, _⟩
  · intro e he
    have he2 : e ∈ generateRequest s.nextId d now :: s.requests.take 49 := he
    rcases List.mem_cons.mp he2 with rfl | he3
    · exact scores_randomInt _
    · exact hS e ((List.take_sublist _ _).subset he3)
  · intro e he
    rw [hr] at he
    exact hS e he

/-! ## Claims -/

/-- C1: after `n ≥ 1` pushes into a buffer of length `k` the buffer has length
`min (k + n) 50`; from the 9 seed requests the length stays between 9 and 50, for any
list of pushes and in every state the mounted component reaches. -/
theorem buffer_length_after_pushes :
    (∀ (buf es : List Event), es ≠ [] →
      (es.foldl push buf).length = min (buf.length + es.length) 50) ∧
    (∀ (env : SeedEnv) (es : List Event),
      9 ≤ (es.foldl push (INITIAL env)).length ∧ (es.foldl push (INITIAL env)).length ≤ 50) ∧
    (∀ (env : SeedEnv) (t0 : ℤ) (r0 : Draw) (acts : List Action) (s : Engine),
      run (mount env t0 r0) acts = some s →
      9 ≤ s.requests.length ∧ s.requests.length ≤ 50) := by
  refine ⟨?_, ?_, ?_⟩
  · intro buf es hne
    rw [foldl_push buf es hne]
    simp only [List.length_take, List.length_append, List.length_reverse]
    omega
  · intro env es
    exact length_foldl_push_bounds _ es (by rw [length_INITIAL]) (by rw [length_INITIAL]; omega)
  · intro env t0 r0 acts s h
    refine run_invariant (fun s => 9 ≤ s.requests.length ∧ s.requests.length ≤ 50) ?_
      acts _ s ?_ h
    · intro s a s1 hP hs
      rcases requests_step hs with h1 | ⟨e, h1⟩
      · rw [h1]; exact hP
      · rw [h1, length_push]; omega
    · simp only [mount, length_INITIAL]
      omega

/-- C2: 51 distinct requests pushed one after another into the empty buffer leave 50
requests, the last pushed one first, the second pushed one last, and the first pushed one
gone. -/
theorem fifty_one_pushes (es : List Event) (hlen : es.length = 51) (hnd : es.Nodup) :
    (es.foldl push []).length = 50 ∧
    (es.foldl push []).head? = es[50]? ∧
    (es.foldl push []).getLast? = es[1]? ∧
    ∀ e, es[0]? = some e → e ∉ es.foldl push [] := by
  cases es with
  | nil => simp at hlen
  | cons e1 rest =>
    have hrest : rest.length = 50 := by simpa using hlen
    have hfold : (e1 :: rest).foldl push [] = rest.reverse := by
      rw [foldl_push [] (e1 :: rest) (by simp)]
      simp only [List.append_nil, List.reverse_cons]
      rw [List.take_append_of_le_length (by simp [hrest])]
      exact List.take_of_length_le (by simp [hrest])
    rw [hfold]
    refine ⟨by simp [hrest], ?_, ?_, ?_⟩
    · rw [List.head?_reverse, List.getLast?_eq_getElem?]
      simp [hrest]
    · rw [List.getLast?_reverse, List.head?_eq_getElem?]
      simp
    · intro e he
      simp only [List.getElem?_cons_zero, Option.some.injEq] at he
      subst he
      simpa using (List.nodup_cons.mp hnd).1

theorem fifty_one_pushes_witness :
    (sampleEvents.foldl push []).length = 50 ∧
    (sampleEvents.foldl push []).head? = sampleEvents[50]? ∧
    (sampleEvents.foldl push []).getLast? = sampleEvents[1]? ∧
    ∀ e, sampleEvents[0]? = some e → e ∉ sampleEvents.foldl push [] :=
  fifty_one_pushes sampleEvents (by decide) (by decide)

/-- C10, the claim as stated fails: with `min = 0` and `max = 2^53` the sum
`max - min + 1` rounds to `2^53`, so no draw makes `randomInt` return `max`. -/
theorem randomInt_never_returns_two_pow_53 :
    ¬ ∃ r : Draw, randomInt 0 (2 ^ 53) r = 2 ^ 53 := by
  rintro ⟨r, hr⟩
  have := randomInt_misses r
  omega

/-- C10, amended: for safe integers `min ≤ max` (`-2^53 < min`, `max < 2^53`) with
`max - min < 2^53 - 1` and any draw, every step of `randomInt` evaluated in binary64 gives
an integer in `[min, max]`; when `max - min < 2^51` every integer of `[min, max]` is the
result for some draw; so the score of a generated request is in `[62, 98]` and the delay
armed by `scheduleNext`, at mount and in the timer callback, is in `[1800, 5000]`. -/
theorem randomInt_range_safe :
    (∀ (min max : ℤ) (r : Draw), min ≤ max → -(2 ^ 53) < min → max < 2 ^ 53 →
      max - min < 2 ^ 53 - 1 →
      min ≤ randomInt min max r ∧ randomInt min max r ≤ max ∧
      ((randomInt min max r : ℤ) : ℚ) = randomIntNumber min max r) ∧
    (∀ (min max k : ℤ), -(2 ^ 53) < min → max < 2 ^ 53 → max - min < 2 ^ 51 →
      min ≤ k → k ≤ max → ∃ r : Draw, randomInt min max r = k) ∧
    (∀ (id : ℕ) (d : Draws) (now : ℤ),
      62 ≤ (generateRequest id d now).sun ∧ (generateRequest id d now).sun ≤ 98) ∧
    (∀ (env : SeedEnv) (t0 : ℤ) (r0 : Draw), ∃ delay : ℤ,
      (mount env t0 r0).pending = some (t0 + delay) ∧ 1800 ≤ delay ∧ delay ≤ 5000) ∧
    (∀ (s : Engine) (now : ℤ) (d : Draws) (r : Draw), ∃ delay : ℤ,
      (arrive s now d r).pending = some (now + delay) ∧ 1800 ≤ delay ∧ delay ≤ 5000) := by
  refine ⟨randomInt_mem, ?_, ?_, ?_, ?_⟩
  · intro min max k hmin hmax hspan h1 h2
    exact ⟨drawFor min max k h1 h2, randomInt_drawFor min max k h1 h2 hmin hmax hspan⟩
  · intro id d now
    exact scores_randomInt d.rSun
  · intro env t0 r0
    exact ⟨randomInt 1800 5000 r0, rfl, delay_randomInt r0⟩
  · intro s now d r
    exact ⟨randomInt 1800 5000 r, rfl, delay_randomInt r⟩

theorem randomInt_range_safe_witness :
    (62 : ℤ) ≤ randomInt 62 98 halfDraw ∧ randomInt 62 98 halfDraw ≤ 98 ∧
    ∃ r : Draw, randomInt 62 98 r = 98 :=
  ⟨(randomInt_range_safe.1 62 98 halfDraw (by decide) (by decide) (by decide) (by decide)).1,
   (randomInt_range_safe.1 62 98 halfDraw (by decide) (by decide) (by decide) (by decide)).2.1,
   randomInt_range_safe.2.1 62 98 98 (by decide) (by decide) (by decide) (by decide)
     (by decide)⟩

/-- C9: along every run from the mounted state, the ids of the seed requests followed by the
ids of the generated requests, in the order of creation, are strictly increasing; every id in
the buffer is below the counter `nextId`; the ids in the buffer are pairwise distinct. -/
theorem ids_never_reused (env : SeedEnv) (t0 : ℤ) (r0 : Draw) (acts : List Action)
    (s : Engine) (h : run (mount env t0 r0) acts = some s) :
    ((INITIAL env ++ generated (mount env t0 r0) acts).map fun e => e.id).Pairwise (· < ·) ∧
    (∀ e ∈ s.requests, e.id < s.nextId) ∧
    (s.requests.map fun e => e.id).Nodup := by
  have hI : IdsBelow s := run_invariant IdsBelow idsBelow_step acts _ s (idsBelow_mount env t0 r0) h
  refine ⟨?_, hI.2, hI.1⟩
  obtain ⟨hg, _⟩ := generated_ids acts _ s h
  have hn : (mount env t0 r0).nextId = 10 := by
    show (INITIAL env).length + 1 = 10
    rw [length_INITIAL]
  rw [List.map_append, ids_INITIAL, hg, hn]
  have h9 : [1, 2, 3, 4, 5, 6, 7, 8, 9] = List.range' 1 9 := by decide
  rw [h9, List.range'_append_1]
  exact List.pairwise_lt_range' 1 _

theorem ids_never_reused_witness :
    ((INITIAL sampleEnv ++ generated (mount sampleEnv 0 halfDraw)
        [.fire 5000 sampleDraws halfDraw]).map fun e => e.id).Pairwise (· < ·) ∧
    (∀ e ∈ (arrive (mount sampleEnv 0 halfDraw) 5000 sampleDraws halfDraw).requests,
      e.id < (arrive (mount sampleEnv 0 halfDraw) 5000 sampleDraws halfDraw).nextId) ∧
    ((arrive (mount sampleEnv 0 halfDraw) 5000 sampleDraws halfDraw).requests.map
      fun e => e.id).Nodup :=
  ids_never_reused sampleEnv 0 halfDraw [.fire 5000 sampleDraws halfDraw] _
    (by rw [run_cons_some (step_fire_mount sampleEnv 0 halfDraw 5000 sampleDraws halfDraw
      (by decide))]; rfl)

/-- C3: the mounted component's buffer, before any timer has fired, holds the seed requests
with ids 1 to 9 in this order and with the times `Date.now() - 126000`, ...,
`Date.now() - 14000`, the oldest first, so it is not newest first; the first generated request
is put in front of them, which gives the ids 10, 1, 2, ..., 9. -/
theorem seed_buffer_is_oldest_first (env : SeedEnv) (t0 : ℤ) (r0 : Draw) :
    ((mount env t0 r0).requests.map fun e => e.id) = [1, 2, 3, 4, 5, 6, 7, 8, 9] ∧
    ((mount env t0 r0).requests.map fun e => e.time) =
      [env.mapNow 0 - 126000, env.mapNow 1 - 112000, env.mapNow 2 - 98000,
       env.mapNow 3 - 84000, env.mapNow 4 - 70000, env.mapNow 5 - 56000,
       env.mapNow 6 - 42000, env.mapNow 7 - 28000, env.mapNow 8 - 14000] ∧
    ¬ NewestFirst (mount env t0 r0).requests ∧
    ∀ (now : ℤ) (d : Draws) (r : Draw),
      ((arrive (mount env t0 r0) now d r).requests.map fun e => e.id) =
        [10, 1, 2, 3, 4, 5, 6, 7, 8, 9] := by
  refine ⟨rfl, ?_, ?_, ?_⟩
  · simp [mount, INITIAL, List.range, List.range.loop]
  · intro hN
    simp only [NewestFirst, mount, INITIAL, List.range, List.range.loop, List.map_cons,
      List.chain'_cons] at hN
    have h21 := hN.1.2
    simp only [generateRequest] at h21
    omega
  · intro now d r
    rfl

/-- C4: once the cleanup of the streaming effect has run, no later action creates a request,
also not the firing of the delay timer that was armed before: the buffer, `total`, `nextId`
stay as they were, the flag stays set, the delay timer is either still the one armed before or
gone, never a new one, and a firing leaves none; nothing is appended to `rpsRef`, which stays
unchanged as long as only actions of the streaming effect happen (the RPS meter, another
effect, may still prune it). -/
theorem no_event_after_cancel (s0 : Engine) (acts : List Action) (s1 : Engine)
    (h : run s0 (.cancel :: acts) = some s1) :
    generated s0 (.cancel :: acts) = [] ∧
    s1.requests = s0.requests ∧ s1.total = s0.total ∧ s1.nextId = s0.nextId ∧
    s1.cancelled = true ∧ (s1.pending = none ∨ s1.pending = s0.pending) ∧
    s1.rpsRef.Sublist s0.rpsRef ∧
    ((∀ a ∈ acts, a.isStream = true) → s1.rpsRef = s0.rpsRef) ∧
    (∀ (now : ℤ) (d : Draws) (r : Draw) (s2 : Engine),
      step s1 (.fire now d r) = some s2 → s2.pending = none ∧ s2.requests = s0.requests) := by
  have hs : step s0 .cancel = some { s0 with cancelled := true } := rfl
  rw [run_cons_some hs] at h
  have hF0 : Frozen s0 { s0 with cancelled := true } :=
    ⟨rfl, rfl, rfl, rfl, Or.inr rfl, List.Sublist.refl _⟩
  obtain ⟨hc, hr, ht, hn, hp, hsub⟩ :=
    run_invariant (Frozen s0) (frozen_step s0) acts _ s1 hF0 h
  refine ⟨?_, hr, ht, hn, hc, hp, hsub, ?_, ?_⟩
  · rw [generated_cons_some hs, generated_cancelled acts _ rfl]
    rfl
  · intro hall
    have h3 := rpsRef_stream acts _ s1 (by rfl) hall h
    exact h3
  · intro now d r s2 hs2
    rcases step_cases hs2 with ⟨_, _, _, _, _, _, _, _, _, rfl⟩ |
      ⟨_, _, _, _, _, _, _, _, hc2, _⟩ | ⟨_, _, _, hne, _, _, _⟩ | ⟨hne, _⟩ | ⟨_, hne, _, _⟩
    · exact ⟨rfl, hr⟩
    · rw [hc] at hc2
      exact absurd hc2 (by simp)
    · exact absurd hne (by simp)
    · exact absurd hne (by simp)
    · exact absurd hne (by simp)

theorem no_event_after_cancel_witness :
    run (mount sampleEnv 0 halfDraw) [.cancel, .fire 5000 sampleDraws halfDraw] =
      some { mount sampleEnv 0 halfDraw with cancelled := true, pending := none, clock := 5000 } ∧
    generated (mount sampleEnv 0 halfDraw) [.cancel, .fire 5000 sampleDraws halfDraw] = [] ∧
    ({ mount sampleEnv 0 halfDraw with
        cancelled := true, pending := none, clock := 5000 } : Engine).requests =
      (mount sampleEnv 0 halfDraw).requests :=
  ⟨run_cancel_fire_mount sampleEnv 0 halfDraw 5000 sampleDraws halfDraw (by decide),
   (no_event_after_cancel (mount sampleEnv 0 halfDraw) [.fire 5000 sampleDraws halfDraw] _
     (run_cancel_fire_mount sampleEnv 0 halfDraw 5000 sampleDraws halfDraw (by decide))).1,
   (no_event_after_cancel (mount sampleEnv 0 halfDraw) [.fire 5000 sampleDraws halfDraw] _
     (run_cancel_fire_mount sampleEnv 0 halfDraw 5000 sampleDraws halfDraw (by decide))).2.1⟩

/-- C8: when the delay timer fires on a state that is not cancelled, the id of the created
request is in `newIds` right after; in every later state whose clock is at least 2200 ms past
that firing and in which no armed removal timer is due, the id is not in `newIds`; and the
firing of the removal timer of an id leaves the membership of every other id as it was. -/
theorem fresh_then_expired (s : Engine) (now : ℤ) (d : Draws) (r : Draw) (s1 : Engine)
    (hc : s.cancelled = false) (h1 : step s (.fire now d r) = some s1) :
    s.nextId ∈ s1.newIds ∧
    (∀ (acts : List Action) (s2 : Engine), run s1 acts = some s2 →
      now + 2200 ≤ s2.clock → (∀ p ∈ s2.removals, s2.clock < p.1) → s.nextId ∉ s2.newIds) ∧
    (∀ (t : Engine) (at_ : ℤ) (id : ℕ) (t1 : Engine), step t (.expire at_ id) = some t1 →
      ∀ k, k ≠ id → (k ∈ t1.newIds ↔ k ∈ t.newIds)) := by
  have hs1 : s1 = arrive s now d r := by
    rcases step_cases h1 with ⟨_, _, _, _, _, _, _, _, hc2, _⟩ |
      ⟨_, _, _, _, hfire, _, _, _, _, hs⟩ | ⟨_, _, _, hne, _, _, _⟩ | ⟨hne, _⟩ | ⟨_, hne, _, _⟩
    · rw [hc] at hc2
      exact absurd hc2 (by simp)
    · simp only [Action.fire.injEq] at hfire
      obtain ⟨rfl, rfl, rfl⟩ := hfire
      exact hs
    · exact absurd hne (by simp)
    · exact absurd hne (by simp)
    · exact absurd hne (by simp)
  subst hs1
  refine ⟨mem_setAdd_self _ _, ?_, ?_⟩
  · intro acts s2 hrun hclock hdue hmem
    have hT0 : HasTimer s.nextId (now + 2200) (arrive s now d r) :=
      ⟨Nat.lt_succ_self _, fun _ => ⟨(now + 2200, s.nextId), by simp [arrive, generateRequest],
        rfl, le_refl _⟩⟩
    obtain ⟨_, htimer⟩ := run_invariant (HasTimer s.nextId (now + 2200))
      (hasTimer_step s.nextId (now + 2200)) acts _ s2 hT0 hrun
    obtain ⟨p, hp, _, hp2⟩ := htimer hmem
    have := hdue p hp
    omega
  · intro t at_ id t1 ht k hk
    rcases step_cases ht with ⟨_, _, _, _, hne, _⟩ | ⟨_, _, _, _, hne, _⟩ |
      ⟨_, _, _, hexp, _, _, rfl⟩ | ⟨hne, _⟩ | ⟨_, hne, _, _⟩
    · exact absurd hne (by simp)
    · exact absurd hne (by simp)
    · simp only [Action.expire.injEq] at hexp
      obtain ⟨rfl, rfl⟩ := hexp
      show k ∈ setDelete t.newIds id ↔ k ∈ t.newIds
      rw [mem_setDelete]
      exact ⟨fun h => h.1, fun h => ⟨h, hk⟩⟩
    · exact absurd hne (by simp)
    · exact absurd hne (by simp)

theorem fresh_then_expired_witness :
    (mount sampleEnv 0 halfDraw).nextId ∈
      (arrive (mount sampleEnv 0 halfDraw) 5000 sampleDraws halfDraw).newIds ∧
    ∃ s2 : Engine,
      run (arrive (mount sampleEnv 0 halfDraw) 5000 sampleDraws halfDraw) [.expire 7200 10] =
        some s2 ∧
      (5000 : ℤ) + 2200 ≤ s2.clock ∧ (∀ p ∈ s2.removals, s2.clock < p.1) ∧
      (mount sampleEnv 0 halfDraw).nextId ∉ s2.newIds :=
  ⟨(fresh_then_expired (mount sampleEnv 0 halfDraw) 5000 sampleDraws halfDraw _ rfl
      (step_fire_mount sampleEnv 0 halfDraw 5000 sampleDraws halfDraw (by decide))).1,
   _, run_expire_arrive_mount sampleEnv 0 halfDraw 5000 sampleDraws halfDraw 7200 (by decide),
   by decide, by simp,
   (fresh_then_expired (mount sampleEnv 0 halfDraw) 5000 sampleDraws halfDraw _ rfl
      (step_fire_mount sampleEnv 0 halfDraw 5000 sampleDraws halfDraw (by decide))).2.1 _ _
     (run_expire_arrive_mount sampleEnv 0 halfDraw 5000 sampleDraws halfDraw 7200 (by decide))
     (by decide) (by simp)⟩

theorem buffer_length_after_pushes_witness :
    (sampleEvents.foldl push (INITIAL sampleEnv)).length = 50 ∧
    9 ≤ (arrive (mount sampleEnv 0 halfDraw) 5000 sampleDraws halfDraw).requests.length ∧
    (arrive (mount sampleEnv 0 halfDraw) 5000 sampleDraws halfDraw).requests.length ≤ 50 :=
  ⟨(buffer_length_after_pushes.1 (INITIAL sampleEnv) sampleEvents (by decide)).trans
      (by rw [length_INITIAL]; decide),
   buffer_length_after_pushes.2.2 sampleEnv 0 halfDraw [.fire 5000 sampleDraws halfDraw] _
     (by rw [run_cons_some (step_fire_mount sampleEnv 0 halfDraw 5000 sampleDraws halfDraw
       (by decide))]; rfl)⟩

/-- C7: for a non-empty list of requests whose scores are safe integers (their absolute
values add up to less than 2^52), `avgSun` is the exact mean of the scores rounded to the
nearest integer with ties towards plus infinity, `⌊mean + 1/2⌋`, so it is within 1/2 of the
mean; nine requests with the scores 70, 75, 80, 85, 90, 65, 72, 88, 95 give 80; and in
every state the mounted component reaches `avgSun` of the buffer is that rounded mean. -/
theorem avgSun_is_rounded_mean :
    (∀ evs : List Event, evs ≠ [] → (evs.map fun e => |e.sun|).sum < 2 ^ 52 →
      avgSun evs = some ⌊(((evs.map fun e => e.sun).sum : ℤ) : ℚ) / (evs.length : ℚ) + 1 / 2⌋ ∧
      ∀ n : ℤ, avgSun evs = some n →
        |(n : ℚ) - (((evs.map fun e => e.sun).sum : ℤ) : ℚ) / (evs.length : ℚ)| ≤ 1 / 2) ∧
    (∀ evs : List Event, (evs.map fun e => e.sun) = [70, 75, 80, 85, 90, 65, 72, 88, 95] →
      avgSun evs = some 80) ∧
    (∀ (env : SeedEnv) (t0 : ℤ) (r0 : Draw) (acts : List Action) (s : Engine),
      run (mount env t0 r0) acts = some s →
      avgSun s.requests =
        some ⌊(((s.requests.map fun e => e.sun).sum : ℤ) : ℚ) / (s.requests.length : ℚ) + 1 / 2⌋) := by
  refine ⟨?_, ?_, ?_⟩
  · intro evs hne hb
    have h := avgSun_eq evs hne hb
    rw [sumSun_eq_sum] at h
    refine ⟨h, ?_⟩
    intro n hn
    rw [h, Option.some.injEq] at hn
    subst hn
    have h1 := Int.floor_le ((((evs.map fun e => e.sun).sum : ℤ) : ℚ) / (evs.length : ℚ) + 1 / 2)
    have h2 := Int.lt_floor_add_one
      ((((evs.map fun e => e.sun).sum : ℤ) : ℚ) / (evs.length : ℚ) + 1 / 2)
    rw [abs_le]
    constructor <;> linarith
  · intro evs hsun
    have hlen : evs.length = 9 := by
      have := congrArg List.length hsun
      simpa using this
    have hne : evs ≠ [] := by
      intro h0
      rw [h0] at hlen
      simp at hlen
    have hb : (evs.map fun e => |e.sun|).sum < 2 ^ 52 := by
      have habs : (evs.map fun e => |e.sun|) = (evs.map fun e => e.sun).map fun v => |v| := by
        rw [List.map_map]
        rfl
      rw [habs, hsun]
      decide
    rw [avgSun_eq evs hne hb, sumSun_eq_sum, hsun, hlen, Option.some.injEq, Int.floor_eq_iff]
    norm_num
  · intro env t0 r0 acts s h
    have hS : ScoresInRange s :=
      run_invariant ScoresInRange scoresInRange_step acts _ s (scoresInRange_mount env t0 r0) h
    have hlen := buffer_length_bounds acts _ s h
      (by show 9 ≤ (INITIAL env).length; rw [length_INITIAL])
      (by show (INITIAL env).length ≤ 50; rw [length_INITIAL]; omega)
    have hne : s.requests ≠ [] := by
      intro h0
      rw [h0] at hlen
      simp at hlen
    have hb : (s.requests.map fun e => |e.sun|).sum < 2 ^ 52 := by
      have := sum_abs_sun_le s.requests hS
      have h50 : ((s.requests.length : ℕ) : ℤ) ≤ 50 := by exact_mod_cast hlen.2
      have h52 : (98 : ℤ) * 50 < 2 ^ 52 := by norm_num
      omega
    have h := avgSun_eq s.requests hne hb
    rw [sumSun_eq_sum] at h
    exact h

theorem avgSun_is_rounded_mean_witness :
    avgSun nineScores = some 80 ∧
    avgSun nineScores =
      some ⌊(((nineScores.map fun e => e.sun).sum : ℤ) : ℚ) / (nineScores.length : ℚ) + 1 / 2⌋ :=
  ⟨avgSun_is_rounded_mean.2.1 nineScores (by decide),
   (avgSun_is_rounded_mean.1 nineScores (by decide) (by decide)).1⟩

/-- C5: after a recomputation on at most 2^32 recorded timestamps (the length limit of an
array), `rps` is a number of tenths `n / 10` where `n` is an integer nearest to
`count / 6`, `count` being the number of timestamps kept, so `rps` is within 1/20 of
`count / 60`; when 120 timestamps are recorded and all are kept, `rps` is 2. -/
theorem rate_is_count_over_sixty_rounded (s : Engine) (now : ℤ)
    (hlen : s.rpsRef.length < 2 ^ 32) :
    ∃ n : ℤ, (recompute s now).rps = (n : ℚ) / 10 ∧
      (∀ m : ℤ, |(n : ℚ) - ((recompute s now).rpsRef.length : ℚ) / 6| ≤
        |(m : ℚ) - ((recompute s now).rpsRef.length : ℚ) / 6|) ∧
      |(recompute s now).rps - ((recompute s now).rpsRef.length : ℚ) / 60| ≤ 1 / 20 ∧
      (s.rpsRef.length = 120 → (∀ ts ∈ s.rpsRef, now - ts < 60000) →
        (recompute s now).rps = 2) := by
  have hkept : ((recompute s now).rpsRef.length : ℕ) < 2 ^ 32 :=
    lt_of_le_of_lt (List.length_filter_le _ _) hlen
  obtain ⟨hup, hlow⟩ := toFixed_binary64_div60 (recompute s now).rpsRef.length hkept
  have hrps : (recompute s now).rps =
      ((toFixed 1 (binary64 (((recompute s now).rpsRef.length : ℚ) / 60)) : ℤ) : ℚ) / 10 := rfl
  generalize toFixed 1 (binary64 (((recompute s now).rpsRef.length : ℚ) / 60)) = n at hup hlow hrps
  have hupq : (6 * (n : ℚ)) ≤ ((recompute s now).rpsRef.length : ℚ) + 3 := by exact_mod_cast hup
  have hlowq : ((recompute s now).rpsRef.length : ℚ) ≤ 6 * (n : ℚ) + 3 := by
    exact_mod_cast hlow
  refine ⟨n, hrps, ?_, ?_, ?_⟩
  · intro m
    by_cases hmn : m = n
    · rw [hmn]
    · have hhalf : |(n : ℚ) - ((recompute s now).rpsRef.length : ℚ) / 6| ≤ 1 / 2 := by
        rw [abs_le]
        constructor <;> linarith
      have hone : (1 : ℚ) ≤ |(m : ℚ) - (n : ℚ)| := by
        have h1 : (1 : ℤ) ≤ |m - n| := Int.one_le_abs (sub_ne_zero.mpr hmn)
        exact_mod_cast h1
      have htri : |(m : ℚ) - (n : ℚ)| ≤ |(m : ℚ) - ((recompute s now).rpsRef.length : ℚ) / 6| +
          |(n : ℚ) - ((recompute s now).rpsRef.length : ℚ) / 6| := by
        have := abs_sub_le (m : ℚ) (((recompute s now).rpsRef.length : ℚ) / 6) (n : ℚ)
        rwa [abs_sub_comm (((recompute s now).rpsRef.length : ℚ) / 6) (n : ℚ)] at this
      linarith
  · rw [hrps, abs_le]
    constructor <;> linarith
  · intro h120 hall
    have hfil : (recompute s now).rpsRef = s.rpsRef := by
      show s.rpsRef.filter (fun ts => decide (now - ts < 60000)) = s.rpsRef
      rw [List.filter_eq_self]
      intro ts hts
      simpa using hall ts hts
    rw [hfil, h120] at hup hlow
    have hn : n = 20 := by omega
    rw [hrps, hn]
    norm_num

set_option maxRecDepth 100000 in
theorem rate_is_count_over_sixty_rounded_witness :
    busyState.rpsRef.length = 120 ∧ (∀ ts ∈ busyState.rpsRef, (60000 : ℤ) - ts < 60000) ∧
    (recompute busyState 60000).rps = 2 :=
  ⟨by decide, by decide,
   (rate_is_count_over_sixty_rounded busyState 60000 (by decide)).elim
     fun _ h => h.2.2.2 (by decide) (by decide)⟩

/-- C6, the claim as stated fails: after one arrival at time 0, `rpsRef` holds the timestamp
0; at the recomputation at time 60000 this timestamp is not older than 60000 ms
(`60000 - 0 > 60000` is false), yet it is removed. -/
theorem prune_removes_the_boundary :
    oneArrival.rpsRef = [0] ∧ ¬ ((60000 : ℤ) - 0 > 60000) ∧
    (recompute oneArrival 60000).rpsRef = [] ∧
    (recompute oneArrival 60000).rpsRef ≠
      oneArrival.rpsRef.filter fun ts => ¬ ((60000 : ℤ) - ts > 60000) := by
  refine ⟨rfl, by decide, by decide, by decide⟩

/-- C6, amended: the recomputation keeps, in the recorded order, exactly the timestamps with
`now - ts < 60000` and removes exactly those with `60000 ≤ now - ts`; the arrival callback
appends its timestamp to `rpsRef`, and an action of the streaming effect either leaves
`rpsRef` as it is or appends one timestamp. -/
theorem prune_keeps_younger_than_sixty_seconds (s : Engine) (now : ℤ) :
    (recompute s now).rpsRef = (s.rpsRef.filter fun ts => now - ts < 60000) ∧
    (∀ ts : ℤ, ts ∈ (recompute s now).rpsRef ↔ ts ∈ s.rpsRef ∧ now - ts < 60000) ∧
    (∀ ts ∈ s.rpsRef, ts ∉ (recompute s now).rpsRef ↔ 60000 ≤ now - ts) ∧
    (recompute s now).rpsRef.Sublist s.rpsRef ∧
    (∀ (t : ℤ) (d : Draws) (r : Draw), (arrive s t d r).rpsRef = s.rpsRef ++ [t]) ∧
    (∀ (a : Action) (s1 : Engine), a.isStream = true → step s a = some s1 →
      s1.rpsRef = s.rpsRef ∨ ∃ t : ℤ, s1.rpsRef = s.rpsRef ++ [t]) := by
  have hmem : ∀ ts : ℤ, ts ∈ (recompute s now).rpsRef ↔ ts ∈ s.rpsRef ∧ now - ts < 60000 := by
    intro ts
    show ts ∈ s.rpsRef.filter (fun ts => decide (now - ts < 60000)) ↔ _
    simp [List.mem_filter]
  refine ⟨rfl, hmem, ?_, List.filter_sublist _, fun _ _ _ => rfl, ?_⟩
  · intro ts hts
    rw [hmem]
    constructor
    · intro h
      by_contra hlt
      exact h ⟨hts, by omega⟩
    · intro h hk
      omega
  · intro a s1 ha h
    rcases step_cases h with ⟨_, _, _, _, _, _, _, _, _, rfl⟩ | ⟨now1, _, _, _, _, _, _, _, _, rfl⟩ |
      ⟨_, _, _, _, _, _, rfl⟩ | ⟨_, rfl⟩ | ⟨_, rfl, _, _⟩
    · exact Or.inl rfl
    · exact Or.inr ⟨now1, rfl⟩
    · exact Or.inl rfl
    · exact Or.inl rfl
    · exact absurd ha (by simp [Action.isStream])

theorem prune_keeps_younger_than_sixty_seconds_witness :
    ((0 : ℤ) ∉ (recompute oneArrival 60000).rpsRef ↔ (60000 : ℤ) ≤ 60000 - 0) ∧
    ((0 : ℤ) ∉ (recompute oneArrival 59999).rpsRef ↔ (60000 : ℤ) ≤ 59999 - 0) :=
  ⟨(prune_keeps_younger_than_sixty_seconds oneArrival 60000).2.2.1 0 (by decide),
   (prune_keeps_younger_than_sixty_seconds oneArrival 59999).2.2.1 0 (by decide)⟩

end LiveRequestsPanel
